import Mathlib

/-!
Verification development for the incremental client-PnL refresh pipeline
(`incremental_refresh_client_pnl.py`, `app/services/client_pnl_service.py`)
and the request coalescer (`app/core/singleflight.py`).

SQL NUMERIC values are modelled by exact fractions `Q` (integer numerator and
denominator, all arithmetic on integers so that everything is computable);
`ROUND(x, 4)` is half-away-from-zero rounding to 4 decimals and produces the
canonical denominator 10000, matching the scale-4 values the pipeline stores.
Nullable SQL columns are `Option` values, and the SQL operators used by the
pipeline (`COALESCE(x,0)`, `ROUND`, `SUM`, `MAX`, `NULLIF`, three-valued `>`)
are given their SQL null semantics explicitly.
-/

/-- Exact fraction: numerator and denominator. The value is `n / d`. -/
structure Q where
  n : Int
  d : Int
deriving DecidableEq

def qZero : Q := ⟨0, 1⟩

def qOfInt (k : Int) : Q := ⟨k, 1⟩

/-- Sentinel `-1.0000` (scale-4 literal from the SQL `CASE` expression). -/
def qNeg1s4 : Q := ⟨-10000, 10000⟩

def qAdd (a b : Q) : Q := ⟨a.n * b.d + b.n * a.d, a.d * b.d⟩

def qSub (a b : Q) : Q := ⟨a.n * b.d - b.n * a.d, a.d * b.d⟩

def qDiv (a b : Q) : Q := ⟨a.n * b.d, a.d * b.n⟩

/-- Numeric equality of fractions by cross multiplication. -/
def qeq (a b : Q) : Bool := decide (a.n * b.d = b.n * a.d)

/-- Round `num / den` to the nearest integer, halves away from zero. -/
def intRoundAway (num den : Int) : Int :=
  if den = 0 then 0
  else
    let n' := if den < 0 then -num else num
    let d' := if den < 0 then -den else den
    if 0 ≤ n' then (2 * n' + d').fdiv (2 * d') else -((2 * (-n') + d').fdiv (2 * d'))

/-- Postgres `ROUND(x, 4)`: half-away-from-zero to 4 decimal places. -/
def round4 (q : Q) : Q := ⟨intRoundAway (q.n * 10000) q.d, 10000⟩

/-! SQL operators with null (`Option`) semantics. -/

/-- SQL `COALESCE(x, 0)`. -/
def sqlCoalesce0 (x : Option Q) : Option Q := some (x.getD qZero)

/-- SQL `ROUND(x, 4)` (null in, null out). -/
def sqlRound4 (x : Option Q) : Option Q := x.map round4

/-- SQL `x / 100.0` (null in, null out). -/
def sqlDiv100 (x : Option Q) : Option Q := x.map (fun q => qDiv q (qOfInt 100))

/-- SQL `x + y` (null if either side is null). -/
def sqlAdd (a b : Option Q) : Option Q :=
  match a, b with
  | some x, some y => some (qAdd x y)
  | _, _ => none

/-- SQL `x - y` (null if either side is null). -/
def sqlSub (a b : Option Q) : Option Q :=
  match a, b with
  | some x, some y => some (qSub x y)
  | _, _ => none

/-- SQL `x / y` (null if either side is null). -/
def sqlDivOpt (a b : Option Q) : Option Q :=
  match a, b with
  | some x, some y => some (qDiv x y)
  | _, _ => none

/-- SQL `NULLIF(x, 0)`. -/
def sqlNullif0 (x : Option Q) : Option Q :=
  match x with
  | some v => if qeq v qZero then none else some v
  | none => none

/-- SQL condition `x = 0` under three-valued logic (`NULL = 0` is not true). -/
def sqlIsZero (x : Option Q) : Bool :=
  match x with
  | some v => qeq v qZero
  | none => false

/-- SQL `a > b` on nullable timestamps: true only when both sides are non-null
and the left is strictly greater (a `NULL` comparison yields not-true). -/
def optGT (a b : Option Int) : Bool :=
  match a, b with
  | some x, some y => decide (y < x)
  | _, _ => false

/-- SQL `SUM` over a group: nulls are ignored; null if no non-null input. -/
def optSum : List (Option Q) → Option Q
  | [] => none
  | none :: xs => optSum xs
  | some v :: xs =>
    match optSum xs with
    | none => some v
    | some s => some (qAdd v s)

/-- SQL `MAX` over nullable integer timestamps (nulls ignored). -/
def listMaxInt : List Int → Option Int
  | [] => none
  | x :: xs =>
    match listMaxInt xs with
    | none => some x
    | some m => some (if x ≤ m then m else x)

/-- Codepoint comparison of strings (model of text ordering used by
`MIN`/`MAX`/`ORDER BY` on the small ASCII tags appearing here). -/
def lexLeN : List Nat → List Nat → Bool
  | [], _ => true
  | _ :: _, [] => false
  | a :: as, b :: bs => if a < b then true else if b < a then false else lexLeN as bs

def strLe (a b : String) : Bool := lexLeN (a.data.map Char.toNat) (b.data.map Char.toNat)

def strMin2 (a b : String) : String := if strLe a b then a else b

def strMax2 (a b : String) : String := if strLe a b then b else a

/-- SQL `MIN` over non-null strings of a group (nulls already filtered out);
also the first element of `array_agg(x ORDER BY x NULLS LAST)` when a non-null
element exists. -/
def listMinStr : List String → Option String
  | [] => none
  | x :: xs =>
    match listMinStr xs with
    | none => some x
    | some m => some (strMin2 x m)

/-- SQL `MAX` over non-null strings of a group. -/
def listMaxStr : List String → Option String
  | [] => none
  | x :: xs =>
    match listMaxStr xs with
    | none => some x
    | some m => some (strMax2 x m)

/-! Data model: rows of the tables touched by the refresh. -/

/-- Row of `public.pnl_user_summary` / `public.pnl_user_summary_mt4live2`
(source-of-truth tables, read-only for the pipeline). -/
structure SourceRow where
  user_id : Option Int := none
  login : Int
  currency : Option String := none
  user_name : Option String := none
  user_group : Option String := none
  country : Option String := none
  user_balance : Option Q := none
  equity : Option Q := none
  positions_floating_pnl : Option Q := none
  closed_total_profit_with_swap : Option Q := none
  total_commission : Option Q := none
  deposit_amount : Option Q := none
  withdrawal_amount : Option Q := none
  closed_sell_volume_lots : Option Q := none
  closed_buy_volume_lots : Option Q := none
  closed_sell_overnight_volume_lots : Option Q := none
  closed_buy_overnight_volume_lots : Option Q := none
  last_updated : Option Int := none
deriving DecidableEq

/-- Row of `public.pnl_client_accounts` (primary key `(client_id, login, server)`). -/
structure AccountRow where
  client_id : Int
  login : Int
  server : String
  currency : Option String := none
  user_name : Option String := none
  user_group : Option String := none
  country : Option String := none
  balance_usd : Option Q := none
  equity_usd : Option Q := none
  floating_pnl_usd : Option Q := none
  closed_profit_usd : Option Q := none
  commission_usd : Option Q := none
  deposit_usd : Option Q := none
  withdrawal_usd : Option Q := none
  volume_lots : Option Q := none
  overnight_volume_lots : Option Q := none
  auto_swap_free_status : Option Q := none
  last_updated : Option Int := none
deriving DecidableEq

/-- Row of `public.pnl_client_summary` (primary key `client_id`). -/
structure SummaryRow where
  client_id : Int
  client_name : Option String := none
  zipcode : Option String := none
  is_enabled : Option Int := none
  total_balance_usd : Option Q := none
  total_equity_usd : Option Q := none
  total_floating_pnl_usd : Option Q := none
  total_closed_profit_usd : Option Q := none
  total_commission_usd : Option Q := none
  total_deposit_usd : Option Q := none
  total_withdrawal_usd : Option Q := none
  total_volume_lots : Option Q := none
  total_overnight_volume_lots : Option Q := none
  auto_swap_free_status : Option Q := none
  account_count : Nat := 0
  last_updated : Option Int := none
deriving DecidableEq

/-- Row of the MySQL `fxbackoffice.users` table (enrichment source). -/
structure FxUser where
  id : Int
  isEnabled : Option Int := none
  zipcode : Option String := none
deriving DecidableEq

/-- Database state seen by one refresh transaction. -/
structure DB where
  src_mt5 : List SourceRow := []
  src_mt4 : List SourceRow := []
  accounts : List AccountRow := []
  summary : List SummaryRow := []
  fx_users : List FxUser := []
  watermarks : List (String × Option Int) := []
deriving DecidableEq

/-- Entry of the `temp_candidates` temp table. -/
structure Candidate where
  client_id : Int
  reason : String
deriving DecidableEq

/-! Candidate detection (`stage_candidates`). -/

/-- Distinct non-null `user_id`s across both source-of-truth tables
(the `UNION` of the two `SELECT DISTINCT user_id` subqueries). -/
def sourceIds (db : DB) : List Int :=
  ((db.src_mt5 ++ db.src_mt4).filterMap (fun s => s.user_id)).dedup

def summaryIds (db : DB) : List Int := db.summary.map (fun s => s.client_id)

/-- Source rows of one client (both tables, `user_id IS NOT NULL` via the match). -/
def srcRowsFor (db : DB) (i : Int) : List SourceRow :=
  (db.src_mt5 ++ db.src_mt4).filter (fun s => s.user_id = some i)

/-- Per-client `MAX(last_updated)` over both source tables (`src_max` CTE). -/
def srcMax (db : DB) (i : Int) : Option Int :=
  listMaxInt ((srcRowsFor db i).filterMap (fun s => s.last_updated))

/-- Clients present in a source table but absent from `pnl_client_summary`
(the left-anti-join), tagged `'missing'`. -/
def missingList (db : DB) : List Candidate :=
  ((sourceIds db).filter (fun i => ¬ i ∈ summaryIds db)).map
    (fun i => { client_id := i, reason := "missing" })

/-- Clients present in both whose source `MAX(last_updated)` is strictly
greater than the summary row's `last_updated`, tagged `'lag'`. -/
def lagList (db : DB) : List Candidate :=
  (db.summary.filter (fun srow =>
      decide (srow.client_id ∈ sourceIds db) && optGT (srcMax db srow.client_id) srow.last_updated)).map
    (fun srow => { client_id := srow.client_id, reason := "lag" })

/-- Insert into `temp_candidates` honouring `ON CONFLICT (client_id) DO NOTHING`. -/
def insertCand (acc : List Candidate) (c : Candidate) : List Candidate :=
  if acc.any (fun x => x.client_id = c.client_id) then acc else acc ++ [c]

/-- The staged candidate set: missing clients inserted first, then lagging
clients, duplicates dropped by the primary-key conflict rule. -/
def stage_candidates (db : DB) : List Candidate :=
  (missingList db ++ lagList db).foldl insertCand []

/-! Account aggregation (`build_accounts_for_candidates`). -/

/-- Row of the `combined` CTE: one source row, currency-normalized. -/
structure CombinedRow where
  client_id : Int
  login : Int
  server : String
  currency : Option String
  user_name : Option String
  user_group : Option String
  country : Option String
  balance_usd : Option Q
  equity_usd : Option Q
  floating_pnl_usd : Option Q
  closed_profit_usd : Option Q
  commission_usd : Option Q
  deposit_usd : Option Q
  withdrawal_usd : Option Q
  volume_lots : Option Q
  overnight_volume_lots : Option Q
  last_updated : Option Int
deriving DecidableEq

/-- SQL `CASE WHEN currency = 'CEN' THEN ROUND(COALESCE(x,0)/100.0, 4)
ELSE ROUND(COALESCE(x,0), 4) END`. -/
def normMoney (cur : Option String) (x : Option Q) : Option Q :=
  if cur = some "CEN" then sqlRound4 (sqlDiv100 (sqlCoalesce0 x))
  else sqlRound4 (sqlCoalesce0 x)

/-- Same `CASE`, applied to the sum of the sell and buy volume columns. -/
def normVolume (cur : Option String) (a b : Option Q) : Option Q :=
  if cur = some "CEN" then sqlRound4 (sqlDiv100 (sqlAdd (sqlCoalesce0 a) (sqlCoalesce0 b)))
  else sqlRound4 (sqlAdd (sqlCoalesce0 a) (sqlCoalesce0 b))

/-- One `combined` row built from source row `s` (with non-null `user_id = u`)
tagged with its server literal. -/
def combineRow (u : Int) (s : SourceRow) (server : String) : CombinedRow :=
  { client_id := u
    login := s.login
    server := server
    currency := s.currency
    user_name := s.user_name
    user_group := s.user_group
    country := s.country
    balance_usd := normMoney s.currency s.user_balance
    equity_usd := normMoney s.currency s.equity
    floating_pnl_usd := normMoney s.currency s.positions_floating_pnl
    closed_profit_usd := normMoney s.currency s.closed_total_profit_with_swap
    commission_usd := normMoney s.currency s.total_commission
    deposit_usd := normMoney s.currency s.deposit_amount
    withdrawal_usd := normMoney s.currency s.withdrawal_amount
    volume_lots := normVolume s.currency s.closed_sell_volume_lots s.closed_buy_volume_lots
    overnight_volume_lots :=
      normVolume s.currency s.closed_sell_overnight_volume_lots s.closed_buy_overnight_volume_lots
    last_updated := s.last_updated }

/-- The `src` CTE restricted to one physical table: candidate rows with a
non-null `user_id`, tagged with the server literal, then normalized. -/
def tagRows (rows : List SourceRow) (server : String) (candIds : List Int) : List CombinedRow :=
  rows.filterMap (fun s =>
    match s.user_id with
    | some u => if u ∈ candIds then some (combineRow u s server) else none
    | none => none)

/-- The full `combined` CTE (`UNION ALL` of the two tagged tables). -/
def combinedRows (db : DB) (candIds : List Int) : List CombinedRow :=
  tagRows db.src_mt5 "MT5" candIds ++ tagRows db.src_mt4 "MT4Live2" candIds

/-- Group of `combined` rows sharing one `(client_id, login)` key. -/
def groupOf (db : DB) (candIds : List Int) (c l : Int) : List CombinedRow :=
  (combinedRows db candIds).filter (fun r => decide (r.client_id = c) && decide (r.login = l))

/-- SQL `CASE WHEN vol = 0 THEN -1.0000
ELSE ROUND(1 - (ov / NULLIF(vol, 0)), 4) END`. -/
def ratioExpr (vol ov : Option Q) : Option Q :=
  if sqlIsZero vol then some qNeg1s4
  else sqlRound4 (sqlSub (some (qOfInt 1)) (sqlDivOpt ov (sqlNullif0 vol)))

/-- One `rolled` row (`GROUP BY client_id, login`) together with the derived
ratio column of the final `SELECT`. The `CASE WHEN MIN(server) = MAX(server)
THEN MIN(server) ELSE MIN(server)` expression is `MIN(server)`. -/
def mkRolled (c l : Int) (r0 : CombinedRow) (rest : List CombinedRow) : AccountRow :=
  let g := r0 :: rest
  let vol := sqlRound4 (optSum (g.map (fun r => r.volume_lots)))
  let ov := sqlRound4 (optSum (g.map (fun r => r.overnight_volume_lots)))
  { client_id := c
    login := l
    server := (g.map (fun r => r.server)).foldl strMin2 r0.server
    currency := listMaxStr (g.filterMap (fun r => r.currency))
    user_name := listMinStr (g.filterMap (fun r => r.user_name))
    user_group := listMinStr (g.filterMap (fun r => r.user_group))
    country := listMinStr (g.filterMap (fun r => r.country))
    balance_usd := sqlRound4 (optSum (g.map (fun r => r.balance_usd)))
    equity_usd := sqlRound4 (optSum (g.map (fun r => r.equity_usd)))
    floating_pnl_usd := sqlRound4 (optSum (g.map (fun r => r.floating_pnl_usd)))
    closed_profit_usd := sqlRound4 (optSum (g.map (fun r => r.closed_profit_usd)))
    commission_usd := sqlRound4 (optSum (g.map (fun r => r.commission_usd)))
    deposit_usd := sqlRound4 (optSum (g.map (fun r => r.deposit_usd)))
    withdrawal_usd := sqlRound4 (optSum (g.map (fun r => r.withdrawal_usd)))
    volume_lots := vol
    overnight_volume_lots := ov
    auto_swap_free_status := ratioExpr vol ov
    last_updated := listMaxInt (g.filterMap (fun r => r.last_updated)) }

/-- Distinct `(client_id, login)` keys of the `combined` rows. -/
def pairKeys (db : DB) (candIds : List Int) : List (Int × Int) :=
  ((combinedRows db candIds).map (fun r => (r.client_id, r.login))).dedup

/-- Rows produced by the big `INSERT ... SELECT` (one per `rolled` group). -/
def rolled_rows (db : DB) (candIds : List Int) : List AccountRow :=
  (pairKeys db candIds).filterMap (fun k =>
    match groupOf db candIds k.1 k.2 with
    | [] => none
    | r0 :: rest => some (mkRolled k.1 k.2 r0 rest))

def accountKey (a : AccountRow) : Int × Int × String := (a.client_id, a.login, a.server)

/-- Generic `INSERT ... ON CONFLICT (key) DO UPDATE SET <all non-key columns>`:
a conflicting row is fully overwritten, otherwise the new row is appended. -/
def upsertBy {α κ : Type} [DecidableEq κ] (key : α → κ) (bs : List α) (r : α) : List α :=
  if bs.any (fun a => decide (key a = key r)) then
    bs.map (fun a => if key a = key r then r else a)
  else bs ++ [r]

/-- The account upsert applied to `pnl_client_accounts`. -/
def build_accounts_for_candidates (db : DB) (candIds : List Int) : List AccountRow :=
  (rolled_rows db candIds).foldl (upsertBy accountKey) db.accounts

/-! Orphan reconciler (`delete_orphan_accounts_for_candidates`). -/

/-- The `EXISTS` subquery: some source row has this `(user_id, login)`. -/
def hasSourceLogin (db : DB) (c l : Int) : Bool :=
  (db.src_mt5 ++ db.src_mt4).any (fun s => decide (s.user_id = some c) && decide (s.login = l))

/-- Delete account rows of candidate clients with no remaining source row for
the same `(user_id, login)`. -/
def delete_orphan_accounts_for_candidates
    (db : DB) (candIds : List Int) (accounts : List AccountRow) : List AccountRow :=
  accounts.filter (fun a =>
    ! (decide (a.client_id ∈ candIds) && ! hasSourceLogin db a.client_id a.login))

/-! Cross-store mapping loader (`fetch_mysql_fx_users_map` / `temp_fx_user_map`). -/

/-- Row of the staged `temp_fx_user_map` temp table. -/
structure FxMapRow where
  client_id : Int
  zipcode : Option String
  is_enabled : Option Int
deriving DecidableEq

/-- Batched `SELECT id, isEnabled, zipcode FROM users WHERE id IN (...)` over
the candidate ids, with `isEnabled` mapped to `1` iff it equals 1. -/
def fetch_mysql_fx_users_map (db : DB) (candIds : List Int) : List FxMapRow :=
  db.fx_users.filterMap (fun u =>
    if u.id ∈ candIds then
      some { client_id := u.id
             zipcode := u.zipcode
             is_enabled := u.isEnabled.map (fun v => if v = 1 then 1 else 0) }
    else none)

/-- The `LEFT JOIN temp_fx_user_map m ON m.client_id = c` lookup. -/
def findFx (fxmap : List FxMapRow) (c : Int) : Option FxMapRow :=
  fxmap.find? (fun m => decide (m.client_id = c))

/-- Count of candidates whose staged zipcode is non-null and `IS DISTINCT
FROM` the current summary zipcode. -/
def count_zipcode_changes
    (candIds : List Int) (fxmap : List FxMapRow) (summary : List SummaryRow) : Nat :=
  (candIds.filter (fun c =>
    match findFx fxmap c with
    | some m =>
      match m.zipcode with
      | some z =>
        match summary.find? (fun s => decide (s.client_id = c)) with
        | some s => decide (s.zipcode ≠ some z)
        | none => true
      | none => false
    | none => false)).length

/-! Summary rebuild (`build_summary_for_candidates`). -/

/-- One `agg` group row joined with `temp_fx_user_map`: note `zipcode` is taken
directly from the mapping (null when the mapping row is absent or null) and
`is_enabled` is `COALESCE(m.is_enabled, 1)`. -/
def mkSummaryRow (c : Int) (a0 : AccountRow) (rest : List AccountRow)
    (m : Option FxMapRow) : SummaryRow :=
  let g := a0 :: rest
  let vol := sqlRound4 (optSum (g.map (fun a => a.volume_lots)))
  let ov := sqlRound4 (optSum (g.map (fun a => a.overnight_volume_lots)))
  { client_id := c
    client_name := listMinStr (g.filterMap (fun a => a.user_name))
    zipcode := match m with
               | some mm => mm.zipcode
               | none => none
    is_enabled := some (match m with
                        | some mm => mm.is_enabled.getD 1
                        | none => 1)
    total_balance_usd := sqlRound4 (optSum (g.map (fun a => a.balance_usd)))
    total_equity_usd := sqlRound4 (optSum (g.map (fun a => a.equity_usd)))
    total_floating_pnl_usd := sqlRound4 (optSum (g.map (fun a => a.floating_pnl_usd)))
    total_closed_profit_usd := sqlRound4 (optSum (g.map (fun a => a.closed_profit_usd)))
    total_commission_usd := sqlRound4 (optSum (g.map (fun a => a.commission_usd)))
    total_deposit_usd := sqlRound4 (optSum (g.map (fun a => a.deposit_usd)))
    total_withdrawal_usd := sqlRound4 (optSum (g.map (fun a => a.withdrawal_usd)))
    total_volume_lots := vol
    total_overnight_volume_lots := ov
    auto_swap_free_status := ratioExpr vol ov
    account_count := ((g.map (fun a => (a.login, a.server))).dedup).length
    last_updated := listMaxInt (g.filterMap (fun a => a.last_updated)) }

/-- Account rows joined against `temp_candidates`. -/
def joinedAccounts (accounts : List AccountRow) (candIds : List Int) : List AccountRow :=
  accounts.filter (fun a => decide (a.client_id ∈ candIds))

/-- The `agg` group of one candidate client. -/
def sgroupOf (accounts : List AccountRow) (candIds : List Int) (c : Int) : List AccountRow :=
  (joinedAccounts accounts candIds).filter (fun a => decide (a.client_id = c))

/-- Rows of the summary `INSERT ... SELECT` (one per `agg` group). -/
def summary_rows (accounts : List AccountRow) (candIds : List Int)
    (fxmap : List FxMapRow) : List SummaryRow :=
  ((joinedAccounts accounts candIds).map (fun a => a.client_id)).dedup.filterMap (fun c =>
    match sgroupOf accounts candIds c with
    | [] => none
    | a0 :: rest => some (mkSummaryRow c a0 rest (findFx fxmap c)))

def summaryKey (s : SummaryRow) : Int := s.client_id

/-- The summary upsert applied to `pnl_client_summary`. -/
def build_summary_for_candidates (db : DB) (accounts : List AccountRow)
    (candIds : List Int) (fxmap : List FxMapRow) : List SummaryRow :=
  (summary_rows accounts candIds fxmap).foldl (upsertBy summaryKey) db.summary

/-! Orchestration (`run_client_pnl_incremental_refresh`). The transaction is
modelled by computing all writes on working copies and installing them only at
the final commit; an error at any step (injected through `fault`, whose value
at `k` is the message of the exception raised by step `k`, if any) reaches the
outer `except` handler: the transaction is rolled back (the returned state is
the unmodified input, watermarks included) and a structured failure result is
returned instead of propagating the exception. -/

structure StepInfo where
  name : String
  affected_rows : Option Nat := none
  total : Option Nat := none
  missing : Option Nat := none
  lag : Option Nat := none
  loaded_mapping : Option Nat := none
  zipcode_changes : Option Nat := none
deriving DecidableEq

structure RefreshResult where
  success : Bool
  message : String
  steps : List StepInfo
  max_last_updated : Option Int
  raw_log : Option String := none
deriving DecidableEq

def failResult (m : String) : RefreshResult :=
  { success := false
    message := "Incremental refresh failed: " ++ m
    steps := []
    max_last_updated := none
    raw_log := some m }

/-- The no-op success outcome returned when the candidate set is empty. -/
def noopResult : RefreshResult :=
  { success := true
    message := "No candidates. Nothing to refresh."
    steps := [{ name := "watermark" },
              { name := "candidates", total := some 0, missing := some 0, lag := some 0 }]
    max_last_updated := none }

/-- Read `MAX(last_updated)` from `etl_watermarks` for the given datasets. -/
def get_source_watermark (db : DB) (datasets : List String) : Option Int :=
  listMaxInt ((db.watermarks.filter (fun w => decide (w.1 ∈ datasets))).filterMap (fun w => w.2))

def run_client_pnl_incremental_refresh (fault : Nat → Option String) (db : DB) :
    RefreshResult × DB :=
  match fault 1 with
  | some m => (failResult m, db)
  | none =>
    let _wm := get_source_watermark db ["pnl_user_summary", "pnl_user_summary_mt4live2"]
    match fault 2 with
    | some m => (failResult m, db)
    | none =>
      if (stage_candidates db).length = 0 then (noopResult, db)
      else
        match fault 3 with
        | some m => (failResult m, db)
        | none =>
          let cands := stage_candidates db
          let candIds := cands.map (fun c => c.client_id)
          let rolled := rolled_rows db candIds
          let accounts1 := build_accounts_for_candidates db candIds
          match fault 4 with
          | some m => (failResult m, db)
          | none =>
            let accounts2 := delete_orphan_accounts_for_candidates db candIds accounts1
            match fault 5 with
            | some m => (failResult m, db)
            | none =>
              let fxmap := fetch_mysql_fx_users_map db candIds
              let zc := count_zipcode_changes candIds fxmap db.summary
              match fault 6 with
              | some m => (failResult m, db)
              | none =>
                let sumRows := summary_rows accounts2 candIds fxmap
                let summary1 := build_summary_for_candidates db accounts2 candIds fxmap
                match fault 7 with
                | some m => (failResult m, db)
                | none =>
                  ({ success := true
                     message := "Incremental refresh completed"
                     steps := [
                       { name := "watermark" },
                       { name := "candidates", total := some cands.length,
                         missing := some ((cands.filter (fun c => decide (c.reason = "missing"))).length),
                         lag := some ((cands.filter (fun c => decide (c.reason = "lag"))).length) },
                       { name := "accounts_upsert", affected_rows := some rolled.length },
                       { name := "delete_orphans",
                         affected_rows := some (accounts1.length - accounts2.length) },
                       { name := "mapping", loaded_mapping := some fxmap.length,
                         zipcode_changes := some zc },
                       { name := "summary_upsert", affected_rows := some sumRows.length },
                       { name := "stats" }]
                     max_last_updated :=
                       listMaxInt ((joinedAccounts accounts2 candIds).filterMap
                         (fun a => a.last_updated)) },
                   { db with accounts := accounts2, summary := summary1 })

/-- A run in which no step raises. -/
def noFault : Nat → Option String := fun _ => none

/-! Request coalescer (`SingleFlight.do` in `app/core/singleflight.py`),
modelled as a small-step interleaving semantics. All threads call
`do(key, fn)` for one fixed key, so the registry `self._calls` is the
`Option` of the current in-flight call id for that key. A `_Call` record is a
pair of a fresh id and its outcome field, which becomes `some r` exactly when
the owner has stored the result/error and set the event. Each constructor of
`SFThread` is one program point of `do`:

* `start`: about to run the mutex-protected check-and-register block;
* `ownerRun c`: registered call `c`, about to execute `fn()` and publish
  the outcome (result or exception) and set the event;
* `ownerCleanup c r`: about to pop the key from the registry, holding its own
  outcome `r`;
* `waiting c`: blocked on call `c`'s event;
* `done r`: returned (`r` is the produced result, or the exception re-raised
  to this caller).

The state counts producer executions (`execCount`), registrations
(`regCount`) and registry removals (`cleanCount`) for the statements. -/

inductive SFThread (ω : Type) where
  | start
  | ownerRun (c : Nat)
  | ownerCleanup (c : Nat) (r : ω)
  | waiting (c : Nat)
  | done (r : ω)
deriving DecidableEq

structure SFState (ω : Type) where
  registry : Option Nat
  calls : List (Nat × Option ω)
  threads : List (SFThread ω)
  nextId : Nat
  execCount : Nat
  regCount : Nat
  cleanCount : Nat
deriving DecidableEq

/-- Store the outcome in the call record (and set its event). -/
def setCallOutcome {ω : Type} (calls : List (Nat × Option ω)) (c : Nat) (r : ω) :
    List (Nat × Option ω) :=
  calls.map (fun p => if p.1 = c then (c, some r) else p)

/-- Read a call record's outcome field. -/
def lookupCall {ω : Type} (calls : List (Nat × Option ω)) (c : Nat) : Option (Option ω) :=
  (calls.find? (fun p => decide (p.1 = c))).map (fun p => p.2)

/-- One atomic step of thread `i`. `fn` is the (pure) producer outcome: the
result `fn()` returns, or the exception it raises. A blocked waiter (event not
yet set) and a finished thread take no step. -/
def sfStep {ω : Type} [DecidableEq ω] (fn : ω) (s : SFState ω) (i : Nat) : SFState ω :=
  match s.threads.get? i with
  | none => s
  | some pc =>
    match pc with
    | .start =>
      match s.registry with
      | some c => { s with threads := s.threads.set i (.waiting c) }
      | none =>
        let c := s.nextId
        { s with registry := some c
                 calls := (c, none) :: s.calls
                 threads := s.threads.set i (.ownerRun c)
                 nextId := s.nextId + 1
                 regCount := s.regCount + 1 }
    | .ownerRun c =>
      { s with calls := setCallOutcome s.calls c fn
               threads := s.threads.set i (.ownerCleanup c fn)
               execCount := s.execCount + 1 }
    | .ownerCleanup _ r =>
      { s with registry := none
               threads := s.threads.set i (.done r)
               cleanCount := s.cleanCount + 1 }
    | .waiting c =>
      match lookupCall s.calls c with
      | some (some r) => { s with threads := s.threads.set i (.done r) }
      | _ => s
    | .done _ => s

/-- Run a schedule (list of thread indices, each taking one step in turn). -/
def sfRun {ω : Type} [DecidableEq ω] (fn : ω) (s : SFState ω) (sched : List Nat) : SFState ω :=
  sched.foldl (sfStep fn) s

/-- Initial state: `n` threads all about to call `do` for the same key. -/
def sfInit (ω : Type) (n : Nat) : SFState ω :=
  { registry := none
    calls := []
    threads := List.replicate n .start
    nextId := 0
    execCount := 0
    regCount := 0
    cleanCount := 0 }

/-- Number of threads at `ownerRun`. -/
def nRun {ω : Type} (s : SFState ω) : Nat :=
  s.threads.countP (fun t => match t with | .ownerRun _ => true | _ => false)

/-- Decidable equality of producer outcomes (results or exceptions). -/
instance instDecEqExcept {ε α : Type} [DecidableEq ε] [DecidableEq α] :
    DecidableEq (Except ε α)
  | Except.error e1, Except.error e2 =>
    if h : e1 = e2 then isTrue (by rw [h]) else isFalse (fun hh => h (by injection hh))
  | Except.error _, Except.ok _ => isFalse (fun hh => Except.noConfusion hh)
  | Except.ok _, Except.error _ => isFalse (fun hh => Except.noConfusion hh)
  | Except.ok a1, Except.ok a2 =>
    if h : a1 = a2 then isTrue (by rw [h]) else isFalse (fun hh => h (by injection hh))

/-- Number of threads at `ownerCleanup`. -/
def nClean {ω : Type} (s : SFState ω) : Nat :=
  s.threads.countP (fun t => match t with | .ownerCleanup _ _ => true | _ => false)

/-- Invariant of the single-flight transition system for a fixed producer
outcome `fn` and `n` threads: thread-list length is preserved; every call
outcome is unset or equals `fn`; finished threads and cleanup-pending owners
carry `fn`; the counters satisfy `regCount = execCount + nRun` and
`execCount = cleanCount + nClean`; the registry is occupied exactly while one
owner is between registration and cleanup; and once any thread has moved, at
least one registration has happened. -/
def SFInv {ω : Type} (fn : ω) (n : Nat) (s : SFState ω) : Prop :=
  s.threads.length = n ∧
  (∀ p ∈ s.calls, p.2 = none ∨ p.2 = some fn) ∧
  (∀ t ∈ s.threads, ∀ r : ω, t = SFThread.done r → r = fn) ∧
  (∀ t ∈ s.threads, ∀ c : Nat, ∀ r : ω, t = SFThread.ownerCleanup c r → r = fn) ∧
  s.regCount = s.execCount + nRun s ∧
  s.execCount = s.cleanCount + nClean s ∧
  (s.registry = none → nRun s + nClean s = 0) ∧
  (s.registry.isSome → nRun s + nClean s = 1) ∧
  (s.registry = none → s.regCount = s.cleanCount) ∧
  (s.registry.isSome → s.regCount = s.cleanCount + 1) ∧
  ((∃ t ∈ s.threads, t ≠ SFThread.start) → 1 ≤ s.regCount)

/-! Concrete database states used as evaluation inputs. -/

/-- A non-cent source row (client 1, balance 5). -/
def exSrcUSD : SourceRow :=
  { user_id := some 1, login := 10, currency := some "USD",
    user_balance := some ⟨5, 1⟩, last_updated := some 5 }

/-- A cent-denominated source row (client 2, balance 150000). -/
def exSrcCEN : SourceRow :=
  { user_id := some 2, login := 20, currency := some "CEN",
    user_balance := some ⟨150000, 1⟩,
    closed_sell_volume_lots := some ⟨3, 1⟩,
    closed_buy_volume_lots := some ⟨1, 1⟩,
    last_updated := some 7 }

/-- One client (id 1) whose summary row lags behind its source row and whose
summary already has known enrichment values; no `fxbackoffice.users` row. -/
def exDB1 : DB :=
  { src_mt5 := [exSrcUSD]
    summary := [{ client_id := 1, zipcode := some "12345", is_enabled := some 0,
                  last_updated := some 0 }] }

/-- The spec's end-to-end scenario: one new client (id 2) with a
cent-denominated balance of 150000 and no summary row yet. -/
def exDB2 : DB :=
  { src_mt5 := [exSrcCEN] }

/-- Three clients: id 7 only in source (missing), id 1 lagging (source 5 >
summary 0), id 9 in both but with a null source timestamp (never lagging). -/
def exDB3 : DB :=
  { src_mt5 := [{ user_id := some 7, login := 70, last_updated := some 3 },
                { user_id := some 1, login := 10, last_updated := some 5 },
                { user_id := some 9, login := 90, last_updated := none }]
    summary := [{ client_id := 1, last_updated := some 0 },
                { client_id := 9, last_updated := some 4 }] }

/-! Helper lemmas about the SQL aggregate operators. -/

theorem listMaxInt_mem {l : List Int} {a : Int} (h : listMaxInt l = some a) : a ∈ l := by
  induction l with
  | nil => simp [listMaxInt] at h
  | cons x xs ih =>
    simp only [listMaxInt] at h
    cases hm : listMaxInt xs with
    | none =>
      rw [hm] at h
      simp only [Option.some.injEq] at h
      subst h
      exact List.mem_cons_self x xs
    | some m =>
      rw [hm] at h
      simp only [Option.some.injEq] at h
      by_cases hle : x ≤ m
      · rw [if_pos hle] at h
        subst h
        exact List.mem_cons_of_mem _ (ih hm)
      · rw [if_neg hle] at h
        subst h
        exact List.mem_cons_self _ _

theorem listMaxInt_ge {l : List Int} {x : Int} (h : x ∈ l) :
    ∃ a, listMaxInt l = some a ∧ x ≤ a := by
  induction l with
  | nil => cases h
  | cons y ys ih =>
    rcases List.mem_cons.mp h with rfl | hmem
    · cases hm : listMaxInt ys with
      | none => exact ⟨x, by simp [listMaxInt, hm], le_refl x⟩
      | some m =>
        refine ⟨if x ≤ m then m else x, by simp [listMaxInt, hm], ?_⟩
        by_cases hle : x ≤ m
        · rw [if_pos hle]; exact hle
        · rw [if_neg hle]
    · obtain ⟨a, ha, hxa⟩ := ih hmem
      refine ⟨if y ≤ a then a else y, by simp [listMaxInt, ha], ?_⟩
      by_cases hle : y ≤ a
      · rw [if_pos hle]; exact hxa
      · rw [if_neg hle]; exact le_trans hxa (le_of_not_le hle)

theorem optSum_cons_isSome (v : Q) (l : List (Option Q)) :
    (optSum (some v :: l)).isSome := by
  cases h : optSum l <;> simp [optSum, h]

/-! Helper lemmas about the generic upsert. -/

theorem upsertBy_mem_self {α κ : Type} [DecidableEq κ] (key : α → κ) (bs : List α) (r : α) :
    r ∈ upsertBy key bs r := by
  unfold upsertBy
  split
  case isTrue h =>
    rcases List.any_eq_true.mp h with ⟨a, ha, hk⟩
    simp only [decide_eq_true_eq] at hk
    exact List.mem_map.mpr ⟨a, ha, by rw [if_pos hk]⟩
  case isFalse h =>
    exact List.mem_append_right _ (List.mem_singleton.mpr rfl)

theorem upsertBy_mem_of_ne {α κ : Type} [DecidableEq κ] (key : α → κ) {bs : List α} {a : α}
    (r : α) (ha : a ∈ bs) (hne : key a ≠ key r) : a ∈ upsertBy key bs r := by
  unfold upsertBy
  split
  · exact List.mem_map.mpr ⟨a, ha, by rw [if_neg hne]⟩
  · exact List.mem_append_left _ ha

theorem upsertBy_inv {α κ : Type} [DecidableEq κ] (key : α → κ) {bs : List α} {r a : α}
    (h : a ∈ upsertBy key bs r) : a = r ∨ (a ∈ bs ∧ key a ≠ key r) := by
  unfold upsertBy at h
  split at h
  case isTrue hany =>
    rcases List.mem_map.mp h with ⟨b, hb, hba⟩
    by_cases hk : key b = key r
    · rw [if_pos hk] at hba
      exact Or.inl hba.symm
    · rw [if_neg hk] at hba
      subst hba
      exact Or.inr ⟨hb, hk⟩
  case isFalse hany =>
    rcases List.mem_append.mp h with hb | hr
    · refine Or.inr ⟨hb, fun hk => ?_⟩
      exact hany (List.any_eq_true.mpr ⟨a, hb, by simp [hk]⟩)
    · exact Or.inl (List.mem_singleton.mp hr)

theorem foldl_upsertBy_mem_of_ne {α κ : Type} [DecidableEq κ] (key : α → κ) {a : α}
    (rs : List α) (bs : List α) (ha : a ∈ bs) (hne : ∀ r ∈ rs, key r ≠ key a) :
    a ∈ rs.foldl (upsertBy key) bs := by
  induction rs generalizing bs with
  | nil => exact ha
  | cons r rs ih =>
    rw [List.foldl_cons]
    refine ih _ (upsertBy_mem_of_ne key r ha ?_)
      (fun r' hr' => hne r' (List.mem_cons_of_mem _ hr'))
    exact fun hk => hne r (List.mem_cons_self _ _) hk.symm

theorem foldl_upsertBy_mem_insert {α κ : Type} [DecidableEq κ] (key : α → κ) {r : α}
    (rs : List α) (bs : List α) (hnd : (rs.map key).Nodup) (hr : r ∈ rs) :
    r ∈ rs.foldl (upsertBy key) bs := by
  induction rs generalizing bs with
  | nil => cases hr
  | cons x xs ih =>
    simp only [List.map_cons, List.nodup_cons] at hnd
    rw [List.foldl_cons]
    rcases List.mem_cons.mp hr with rfl | hmem
    · refine foldl_upsertBy_mem_of_ne key xs _ (upsertBy_mem_self key bs r) ?_
      intro r' hr' hk
      exact hnd.1 (hk ▸ List.mem_map_of_mem key hr')
    · exact ih _ hnd.2 hmem

theorem foldl_upsertBy_inv {α κ : Type} [DecidableEq κ] (key : α → κ) {a : α}
    (rs : List α) (bs : List α) (h : a ∈ rs.foldl (upsertBy key) bs) :
    a ∈ rs ∨ (a ∈ bs ∧ ∀ r ∈ rs, key r ≠ key a) := by
  induction rs generalizing bs with
  | nil => exact Or.inr ⟨h, by simp⟩
  | cons x xs ih =>
    rw [List.foldl_cons] at h
    rcases ih (upsertBy key bs x) h with hmem | ⟨hb, hne⟩
    · exact Or.inl (List.mem_cons_of_mem _ hmem)
    · rcases upsertBy_inv key hb with rfl | ⟨hbs, hk⟩
      · exact Or.inl (List.mem_cons_self _ _)
      · refine Or.inr ⟨hbs, fun r hr => ?_⟩
        rcases List.mem_cons.mp hr with rfl | hr'
        · exact fun hkk => hk hkk.symm
        · exact hne r hr'

/-! Helper lemmas about the conflict-ignoring candidate insert. -/

theorem insertCand_ids (acc : List Candidate) (c : Candidate) (i : Int) :
    i ∈ (insertCand acc c).map (fun x => x.client_id) ↔
      i ∈ acc.map (fun x => x.client_id) ∨ i = c.client_id := by
  unfold insertCand
  split
  case isTrue h =>
    constructor
    · exact Or.inl
    · rintro (ha | rfl)
      · exact ha
      · rcases List.any_eq_true.mp h with ⟨x, hx, hk⟩
        simp only [decide_eq_true_eq] at hk
        exact List.mem_map.mpr ⟨x, hx, hk⟩
  case isFalse h =>
    simp [List.map_append]

theorem foldl_insertCand_ids (rs : List Candidate) (acc : List Candidate) (i : Int) :
    i ∈ ((rs.foldl insertCand acc).map (fun x => x.client_id)) ↔
      i ∈ acc.map (fun x => x.client_id) ∨ i ∈ rs.map (fun x => x.client_id) := by
  induction rs generalizing acc with
  | nil => simp
  | cons x xs ih =>
    rw [List.foldl_cons, ih, insertCand_ids]
    simp [or_assoc]

theorem foldl_insertCand_inv (rs acc : List Candidate) (c : Candidate)
    (h : c ∈ rs.foldl insertCand acc) : c ∈ acc ∨ c ∈ rs := by
  induction rs generalizing acc with
  | nil => exact Or.inl h
  | cons x xs ih =>
    rw [List.foldl_cons] at h
    rcases ih (insertCand acc x) h with hm | hm
    · unfold insertCand at hm
      split at hm
      · exact Or.inl hm
      · rcases List.mem_append.mp hm with hm' | hm'
        · exact Or.inl hm'
        · exact Or.inr (List.mem_cons.mpr (Or.inl (List.mem_singleton.mp hm')))
    · exact Or.inr (List.mem_cons_of_mem _ hm)

theorem foldl_insertCand_of_nodup (rs : List Candidate) (acc : List Candidate)
    (hnd : ((acc ++ rs).map (fun x => x.client_id)).Nodup) :
    rs.foldl insertCand acc = acc ++ rs := by
  induction rs generalizing acc with
  | nil => simp
  | cons x xs ih =>
    have hx : ¬ x.client_id ∈ acc.map (fun y => y.client_id) := by
      intro hmem
      rw [List.map_append] at hnd
      exact (List.nodup_append.mp hnd).2.2 hmem (by simp)
    have hins : insertCand acc x = acc ++ [x] := by
      unfold insertCand
      rw [if_neg]
      simp only [List.any_eq_true, decide_eq_true_eq, not_exists, not_and]
      intro y hy hk
      exact hx (List.mem_map.mpr ⟨y, hy, hk⟩)
    have hnd' : (((acc ++ [x]) ++ xs).map (fun y => y.client_id)).Nodup := by
      rw [List.append_assoc, List.singleton_append]
      exact hnd
    rw [List.foldl_cons, hins, ih (acc ++ [x]) hnd', List.append_assoc, List.singleton_append]

/-! Characterization of the staged candidate set. -/

theorem stage_candidates_eq (db : DB) (hWF : (summaryIds db).Nodup) :
    stage_candidates db = missingList db ++ lagList db := by
  unfold stage_candidates
  have h := foldl_insertCand_of_nodup (missingList db ++ lagList db) []
  rw [List.nil_append] at h
  apply h
  rw [List.map_append]
  apply List.Nodup.append
  · unfold missingList
    rw [List.map_map]
    exact ((List.nodup_dedup _).filter _).map (fun a b hab => hab)
  · unfold lagList
    rw [List.map_map]
    exact List.Nodup.sublist (List.Sublist.map _ (List.filter_sublist _)) hWF
  · intro i hi hj
    unfold missingList at hi
    rw [List.map_map] at hi
    rcases List.mem_map.mp hi with ⟨i', hi', rfl⟩
    rw [List.mem_filter] at hi'
    have hnot : ¬ i' ∈ summaryIds db := by
      have := hi'.2
      simpa using this
    unfold lagList at hj
    rw [List.map_map] at hj
    rcases List.mem_map.mp hj with ⟨srow, hsrow, hcid⟩
    rw [List.mem_filter] at hsrow
    apply hnot
    rw [show (i' : Int) = srow.client_id from hcid.symm]
    exact List.mem_map.mpr ⟨srow, hsrow.1, rfl⟩

theorem mem_missingList (db : DB) (i : Int) (hsrc : i ∈ sourceIds db)
    (hsum : ¬ i ∈ summaryIds db) :
    ({ client_id := i, reason := "missing" } : Candidate) ∈ missingList db := by
  unfold missingList
  refine List.mem_map.mpr ⟨i, ?_, rfl⟩
  rw [List.mem_filter]
  exact ⟨hsrc, by simpa using hsum⟩

theorem mem_missingList_inv (db : DB) (c : Candidate) (h : c ∈ missingList db) :
    c.reason = "missing" ∧ c.client_id ∈ sourceIds db ∧ ¬ c.client_id ∈ summaryIds db := by
  unfold missingList at h
  rcases List.mem_map.mp h with ⟨i, hi, rfl⟩
  rw [List.mem_filter] at hi
  exact ⟨rfl, hi.1, by simpa using hi.2⟩

theorem mem_lagList (db : DB) (srow : SummaryRow) (hs : srow ∈ db.summary)
    (hsrc : srow.client_id ∈ sourceIds db)
    (hgt : optGT (srcMax db srow.client_id) srow.last_updated = true) :
    ({ client_id := srow.client_id, reason := "lag" } : Candidate) ∈ lagList db := by
  unfold lagList
  refine List.mem_map.mpr ⟨srow, ?_, rfl⟩
  rw [List.mem_filter]
  exact ⟨hs, by simp [hsrc, hgt]⟩

theorem mem_lagList_inv (db : DB) (c : Candidate) (h : c ∈ lagList db) :
    c.reason = "lag" ∧ ∃ srow ∈ db.summary, srow.client_id = c.client_id ∧
      c.client_id ∈ sourceIds db ∧
      optGT (srcMax db c.client_id) srow.last_updated = true := by
  unfold lagList at h
  rcases List.mem_map.mp h with ⟨srow, hsrow, rfl⟩
  rw [List.mem_filter] at hsrow
  have h2 := hsrow.2
  simp only [Bool.and_eq_true, decide_eq_true_eq] at h2
  exact ⟨rfl, srow, hsrow.1, rfl, h2.1, h2.2⟩

/-- Membership of an id in the candidate set, independent of any
well-formedness assumption (duplicates are collapsed by the conflict rule but
the set of client ids is preserved). -/
theorem mem_stage_ids_iff (db : DB) (i : Int) :
    i ∈ (stage_candidates db).map (fun c => c.client_id) ↔
      i ∈ (missingList db).map (fun c => c.client_id) ∨
      i ∈ (lagList db).map (fun c => c.client_id) := by
  unfold stage_candidates
  rw [foldl_insertCand_ids]
  simp [List.map_append]

theorem stage_ids_sub_source (db : DB) (i : Int)
    (h : i ∈ (stage_candidates db).map (fun c => c.client_id)) : i ∈ sourceIds db := by
  rcases (mem_stage_ids_iff db i).mp h with hm | hl
  · rcases List.mem_map.mp hm with ⟨c, hc, rfl⟩
    exact (mem_missingList_inv db c hc).2.1
  · rcases List.mem_map.mp hl with ⟨c, hc, rfl⟩
    rcases (mem_lagList_inv db c hc).2 with ⟨srow, _, _, hsrc, _⟩
    exact hsrc

theorem stage_ids_of_missing (db : DB) (i : Int) (hsrc : i ∈ sourceIds db)
    (hsum : ¬ i ∈ summaryIds db) :
    i ∈ (stage_candidates db).map (fun c => c.client_id) := by
  refine (mem_stage_ids_iff db i).mpr (Or.inl ?_)
  exact List.mem_map.mpr ⟨_, mem_missingList db i hsrc hsum, rfl⟩

theorem stage_ids_of_lag (db : DB) (srow : SummaryRow) (hs : srow ∈ db.summary)
    (hsrc : srow.client_id ∈ sourceIds db)
    (hgt : optGT (srcMax db srow.client_id) srow.last_updated = true) :
    srow.client_id ∈ (stage_candidates db).map (fun c => c.client_id) := by
  refine (mem_stage_ids_iff db srow.client_id).mpr (Or.inr ?_)
  exact List.mem_map.mpr ⟨_, mem_lagList db srow hs hsrc hgt, rfl⟩

theorem not_lag_of_not_stage (db : DB) (srow : SummaryRow) (hs : srow ∈ db.summary)
    (hnc : ¬ srow.client_id ∈ (stage_candidates db).map (fun c => c.client_id)) :
    optGT (srcMax db srow.client_id) srow.last_updated = false := by
  by_cases hsrc : srow.client_id ∈ sourceIds db
  · by_cases hgt : optGT (srcMax db srow.client_id) srow.last_updated = true
    · exact absurd (stage_ids_of_lag db srow hs hsrc hgt) hnc
    · exact Bool.not_eq_true _ ▸ (Bool.eq_false_iff.mpr hgt)
  · cases h : srcMax db srow.client_id with
    | none => cases hl : srow.last_updated <;> simp [optGT, h]
    | some a =>
      exfalso
      apply hsrc
      have ha := listMaxInt_mem h
      rcases List.mem_filterMap.mp ha with ⟨s, hsr, _⟩
      unfold srcRowsFor at hsr
      rw [List.mem_filter] at hsr
      unfold sourceIds
      rw [List.mem_dedup]
      refine List.mem_filterMap.mpr ⟨s, hsr.1, ?_⟩
      simpa using hsr.2

/-- C3: an entity present in a source-of-truth table but absent from the
summary table is staged with reason `'missing'`; an entity present in both is
staged with reason `'lag'` iff its per-entity source `MAX(last_updated)` is
strictly greater (under SQL three-valued comparison) than the summary row's
`last_updated`; an entity whose source timestamps are all NULL is never staged
by the lag rule; and every entity satisfying the strict-greater condition is
staged with reason `'lag'`. -/
theorem candidate_detection_characterization (db : DB)
    (hWF : (summaryIds db).Nodup) :
    (∀ i : Int, i ∈ sourceIds db → ¬ i ∈ summaryIds db →
        ({ client_id := i, reason := "missing" } : Candidate) ∈ stage_candidates db) ∧
    (∀ srow ∈ db.summary, srow.client_id ∈ sourceIds db →
        (({ client_id := srow.client_id, reason := "lag" } : Candidate) ∈ stage_candidates db ↔
          optGT (srcMax db srow.client_id) srow.last_updated = true)) ∧
    (∀ i : Int, (srcRowsFor db i).filterMap (fun s => s.last_updated) = [] →
        ¬ ({ client_id := i, reason := "lag" } : Candidate) ∈ stage_candidates db) ∧
    (∀ srow ∈ db.summary, ∀ a b : Int, srcMax db srow.client_id = some a →
        srow.last_updated = some b → b < a →
        ({ client_id := srow.client_id, reason := "lag" } : Candidate) ∈ stage_candidates db) := by
  have hstage := stage_candidates_eq db hWF
  refine ⟨?_, ?_, ?_, ?_⟩
  · intro i hsrc hsum
    rw [hstage]
    exact List.mem_append_left _ (mem_missingList db i hsrc hsum)
  · intro srow hs hsrc
    constructor
    · intro hmem
      rw [hstage] at hmem
      rcases List.mem_append.mp hmem with hm | hl
      · have hr := (mem_missingList_inv db _ hm).1
        simp at hr
      · rcases (mem_lagList_inv db _ hl).2 with ⟨srow', hs', hcid, _, hgt⟩
        have heq : srow' = srow :=
          List.inj_on_of_nodup_map hWF hs' hs (hcid : srow'.client_id = srow.client_id)
        rw [heq] at hgt
        exact hgt
    · intro hgt
      rw [hstage]
      exact List.mem_append_right _ (mem_lagList db srow hs hsrc hgt)
  · intro i hnull hmem
    rw [hstage] at hmem
    rcases List.mem_append.mp hmem with hm | hl
    · have hr := (mem_missingList_inv db _ hm).1
      simp at hr
    · rcases (mem_lagList_inv db _ hl).2 with ⟨srow', _, _, _, hgt⟩
      have hnone : srcMax db i = none := by unfold srcMax; rw [hnull]; rfl
      simp only [show ({ client_id := i, reason := "lag" } : Candidate).client_id = i from rfl]
        at hgt
      rw [hnone] at hgt
      cases hl' : srow'.last_updated <;> rw [hl'] at hgt <;> simp [optGT] at hgt
  · intro srow hs a b hmax hlu hba
    rw [hstage]
    have hsrc : srow.client_id ∈ sourceIds db := by
      have ha := listMaxInt_mem hmax
      rcases List.mem_filterMap.mp ha with ⟨s, hsr, _⟩
      unfold srcRowsFor at hsr
      rw [List.mem_filter] at hsr
      unfold sourceIds
      rw [List.mem_dedup]
      refine List.mem_filterMap.mpr ⟨s, hsr.1, ?_⟩
      simpa using hsr.2
    refine List.mem_append_right _ (mem_lagList db srow hs hsrc ?_)
    rw [hmax, hlu]
    simpa [optGT] using hba

/-- Witness for C3 on `exDB3`: client 7 is staged missing, client 1 is staged
lagging, and client 9 (whose only source timestamp is NULL) is not staged by
the lag rule. -/
theorem candidate_detection_witness :
    ({ client_id := 7, reason := "missing" } : Candidate) ∈ stage_candidates exDB3 ∧
    ({ client_id := 1, reason := "lag" } : Candidate) ∈ stage_candidates exDB3 ∧
    ¬ ({ client_id := 9, reason := "lag" } : Candidate) ∈ stage_candidates exDB3 := by
  refine ⟨?_, ?_, ?_⟩
  · exact (candidate_detection_characterization exDB3 (by decide)).1 7 (by decide) (by decide)
  · exact ((candidate_detection_characterization exDB3 (by decide)).2.1
      { client_id := 1, last_updated := some 0 } (by decide) (by decide)).mpr (by decide)
  · exact (candidate_detection_characterization exDB3 (by decide)).2.2.1 9 (by decide)

/-! Inversion lemmas for the aggregation pipeline. -/

theorem combinedRows_inv {db : DB} {candIds : List Int} {r : CombinedRow}
    (h : r ∈ combinedRows db candIds) :
    ∃ u s server, (s ∈ db.src_mt5 ∨ s ∈ db.src_mt4) ∧ s.user_id = some u ∧
      u ∈ candIds ∧ r = combineRow u s server := by
  unfold combinedRows tagRows at h
  rcases List.mem_append.mp h with h' | h' <;>
  · rcases List.mem_filterMap.mp h' with ⟨s, hs, heq⟩
    cases hu : s.user_id with
    | none => rw [hu] at heq; cases heq
    | some u =>
      rw [hu] at heq
      have heq' : (if u ∈ candIds then some (combineRow u s _) else none) = some r := heq
      by_cases hc : u ∈ candIds
      · rw [if_pos hc] at heq'
        simp only [Option.some.injEq] at heq'
        first
        | exact ⟨u, s, "MT5", Or.inl hs, hu, hc, heq'.symm⟩
        | exact ⟨u, s, "MT4Live2", Or.inr hs, hu, hc, heq'.symm⟩
      · rw [if_neg hc] at heq'; cases heq' 

theorem mem_combinedRows_mt5 {db : DB} {candIds : List Int} {s : SourceRow} {u : Int}
    (hs : s ∈ db.src_mt5) (hu : s.user_id = some u) (hc : u ∈ candIds) :
    combineRow u s "MT5" ∈ combinedRows db candIds := by
  unfold combinedRows
  refine List.mem_append_left _ ?_
  unfold tagRows
  refine List.mem_filterMap.mpr ⟨s, hs, ?_⟩
  rw [hu]
  show (if u ∈ candIds then some (combineRow u s _) else none) = _
  rw [if_pos hc]

theorem mem_combinedRows_mt4 {db : DB} {candIds : List Int} {s : SourceRow} {u : Int}
    (hs : s ∈ db.src_mt4) (hu : s.user_id = some u) (hc : u ∈ candIds) :
    combineRow u s "MT4Live2" ∈ combinedRows db candIds := by
  unfold combinedRows
  refine List.mem_append_right _ ?_
  unfold tagRows
  refine List.mem_filterMap.mpr ⟨s, hs, ?_⟩
  rw [hu]
  show (if u ∈ candIds then some (combineRow u s _) else none) = _
  rw [if_pos hc]

theorem rolled_rows_inv {db : DB} {candIds : List Int} {r : AccountRow}
    (h : r ∈ rolled_rows db candIds) :
    ∃ c l r0 rest, groupOf db candIds c l = r0 :: rest ∧ r = mkRolled c l r0 rest := by
  unfold rolled_rows at h
  rcases List.mem_filterMap.mp h with ⟨k, hk, hr⟩
  cases hg : groupOf db candIds k.1 k.2 with
  | nil => rw [hg] at hr; cases hr
  | cons r0 rest =>
    rw [hg] at hr
    simp only [Option.some.injEq] at hr
    exact ⟨k.1, k.2, r0, rest, hg, hr.symm⟩

theorem summary_rows_inv {accounts : List AccountRow} {candIds : List Int}
    {fxmap : List FxMapRow} {srow : SummaryRow}
    (h : srow ∈ summary_rows accounts candIds fxmap) :
    ∃ c a0 rest, sgroupOf accounts candIds c = a0 :: rest ∧
      srow = mkSummaryRow c a0 rest (findFx fxmap c) := by
  unfold summary_rows at h
  rcases List.mem_filterMap.mp h with ⟨c, hc, hr⟩
  cases hg : sgroupOf accounts candIds c with
  | nil => rw [hg] at hr; cases hr
  | cons a0 rest =>
    rw [hg] at hr
    simp only [Option.some.injEq] at hr
    exact ⟨c, a0, rest, hg, hr.symm⟩

theorem normMoney_eq_some (cur : Option String) (x : Option Q) :
    ∃ v, normMoney cur x = some v := by
  unfold normMoney sqlRound4 sqlDiv100 sqlCoalesce0
  split <;> exact ⟨_, rfl⟩

theorem normVolume_eq_some (cur : Option String) (a b : Option Q) :
    ∃ v, normVolume cur a b = some v := by
  unfold normVolume sqlRound4 sqlDiv100 sqlCoalesce0 sqlAdd
  split <;> exact ⟨_, rfl⟩

theorem rolled_field_isSome (r0 : CombinedRow) (rest : List CombinedRow)
    (f : CombinedRow → Option Q) (hf : ∃ v, f r0 = some v) :
    (sqlRound4 (optSum ((r0 :: rest).map f))).isSome := by
  obtain ⟨v, hv⟩ := hf
  rw [List.map_cons, hv]
  have hs := optSum_cons_isSome v (rest.map f)
  cases h : optSum (some v :: rest.map f) with
  | none => rw [h] at hs; cases hs
  | some w => simp [sqlRound4, h]

/-- C4: for every source row of a candidate, if the currency is the
cent-denominated code `'CEN'` then each monetary amount and each of the two
volume sums is divided by 100 and rounded to 4 decimals; for any other
currency the (coalesced) value passes through unchanged apart from the
4-decimal rounding. In particular `balance_usd = ROUND(balance/100, 4)` for
cent rows and `balance_usd = ROUND(balance, 4)` otherwise. -/
theorem currency_normalization (u : Int) (s : SourceRow) (server : String) :
    (s.currency = some "CEN" →
      (combineRow u s server).balance_usd
          = some (round4 (qDiv (s.user_balance.getD qZero) (qOfInt 100))) ∧
      (combineRow u s server).equity_usd
          = some (round4 (qDiv (s.equity.getD qZero) (qOfInt 100))) ∧
      (combineRow u s server).floating_pnl_usd
          = some (round4 (qDiv (s.positions_floating_pnl.getD qZero) (qOfInt 100))) ∧
      (combineRow u s server).closed_profit_usd
          = some (round4 (qDiv (s.closed_total_profit_with_swap.getD qZero) (qOfInt 100))) ∧
      (combineRow u s server).commission_usd
          = some (round4 (qDiv (s.total_commission.getD qZero) (qOfInt 100))) ∧
      (combineRow u s server).deposit_usd
          = some (round4 (qDiv (s.deposit_amount.getD qZero) (qOfInt 100))) ∧
      (combineRow u s server).withdrawal_usd
          = some (round4 (qDiv (s.withdrawal_amount.getD qZero) (qOfInt 100))) ∧
      (combineRow u s server).volume_lots
          = some (round4 (qDiv (qAdd (s.closed_sell_volume_lots.getD qZero)
              (s.closed_buy_volume_lots.getD qZero)) (qOfInt 100))) ∧
      (combineRow u s server).overnight_volume_lots
          = some (round4 (qDiv (qAdd (s.closed_sell_overnight_volume_lots.getD qZero)
              (s.closed_buy_overnight_volume_lots.getD qZero)) (qOfInt 100)))) ∧
    (s.currency ≠ some "CEN" →
      (combineRow u s server).balance_usd = some (round4 (s.user_balance.getD qZero)) ∧
      (combineRow u s server).equity_usd = some (round4 (s.equity.getD qZero)) ∧
      (combineRow u s server).floating_pnl_usd
          = some (round4 (s.positions_floating_pnl.getD qZero)) ∧
      (combineRow u s server).closed_profit_usd
          = some (round4 (s.closed_total_profit_with_swap.getD qZero)) ∧
      (combineRow u s server).commission_usd
          = some (round4 (s.total_commission.getD qZero)) ∧
      (combineRow u s server).deposit_usd = some (round4 (s.deposit_amount.getD qZero)) ∧
      (combineRow u s server).withdrawal_usd
          = some (round4 (s.withdrawal_amount.getD qZero)) ∧
      (combineRow u s server).volume_lots
          = some (round4 (qAdd (s.closed_sell_volume_lots.getD qZero)
              (s.closed_buy_volume_lots.getD qZero))) ∧
      (combineRow u s server).overnight_volume_lots
          = some (round4 (qAdd (s.closed_sell_overnight_volume_lots.getD qZero)
              (s.closed_buy_overnight_volume_lots.getD qZero)))) := by
  constructor <;> intro h <;>
    simp [combineRow, normMoney, normVolume, sqlRound4, sqlDiv100, sqlCoalesce0, sqlAdd, h]

/-- Witness for C4: the cent-denominated source row of `exDB2` (balance
150000 becomes 1500.0000) and the non-cent row of `exDB1` (balance 5 passes
through as 5.0000). -/
theorem currency_normalization_witness :
    (combineRow 2 exSrcCEN "MT5").balance_usd
      = some (round4 (qDiv (exSrcCEN.user_balance.getD qZero) (qOfInt 100))) ∧
    (combineRow 1 exSrcUSD "MT5").balance_usd
      = some (round4 (exSrcUSD.user_balance.getD qZero)) := by
  constructor
  · exact ((currency_normalization 2 exSrcCEN "MT5").1 (by decide)).1
  · exact ((currency_normalization 1 exSrcUSD "MT5").2 (by decide)).1

/-- C10: every account row computed by the aggregation coalesces NULL
monetary and volume source fields to 0 before normalization, so none of its
computed numeric columns is NULL. -/
theorem aggregation_never_null (db : DB) (candIds : List Int) (r : AccountRow)
    (h : r ∈ rolled_rows db candIds) :
    r.balance_usd.isSome ∧ r.equity_usd.isSome ∧ r.floating_pnl_usd.isSome ∧
    r.closed_profit_usd.isSome ∧ r.commission_usd.isSome ∧ r.deposit_usd.isSome ∧
    r.withdrawal_usd.isSome ∧ r.volume_lots.isSome ∧ r.overnight_volume_lots.isSome := by
  obtain ⟨c, l, r0, rest, hg, rfl⟩ := rolled_rows_inv h
  have hr0 : r0 ∈ combinedRows db candIds := by
    have hmem : r0 ∈ groupOf db candIds c l := hg ▸ List.mem_cons_self _ _
    unfold groupOf at hmem
    exact (List.mem_filter.mp hmem).1
  obtain ⟨u, s, server, _, _, _, rfl⟩ := combinedRows_inv hr0
  refine ⟨?_, ?_, ?_, ?_, ?_, ?_, ?_, ?_, ?_⟩
  · exact rolled_field_isSome _ rest (fun x => x.balance_usd)
      (normMoney_eq_some s.currency s.user_balance)
  · exact rolled_field_isSome _ rest (fun x => x.equity_usd)
      (normMoney_eq_some s.currency s.equity)
  · exact rolled_field_isSome _ rest (fun x => x.floating_pnl_usd)
      (normMoney_eq_some s.currency s.positions_floating_pnl)
  · exact rolled_field_isSome _ rest (fun x => x.closed_profit_usd)
      (normMoney_eq_some s.currency s.closed_total_profit_with_swap)
  · exact rolled_field_isSome _ rest (fun x => x.commission_usd)
      (normMoney_eq_some s.currency s.total_commission)
  · exact rolled_field_isSome _ rest (fun x => x.deposit_usd)
      (normMoney_eq_some s.currency s.deposit_amount)
  · exact rolled_field_isSome _ rest (fun x => x.withdrawal_usd)
      (normMoney_eq_some s.currency s.withdrawal_amount)
  · exact rolled_field_isSome _ rest (fun x => x.volume_lots)
      (normVolume_eq_some s.currency s.closed_sell_volume_lots s.closed_buy_volume_lots)
  · exact rolled_field_isSome _ rest (fun x => x.overnight_volume_lots)
      (normVolume_eq_some s.currency s.closed_sell_overnight_volume_lots
        s.closed_buy_overnight_volume_lots)

/-- Witness for C10 on the account row computed for `exDB2`'s single client. -/
theorem aggregation_never_null_witness :
    ∃ r ∈ rolled_rows exDB2 [2], r.balance_usd.isSome ∧ r.equity_usd.isSome ∧
      r.floating_pnl_usd.isSome ∧ r.closed_profit_usd.isSome ∧ r.commission_usd.isSome ∧
      r.deposit_usd.isSome ∧ r.withdrawal_usd.isSome ∧ r.volume_lots.isSome ∧
      r.overnight_volume_lots.isSome := by
  have hmem : mkRolled 2 20 (combineRow 2 exSrcCEN "MT5") [] ∈ rolled_rows exDB2 [2] := by
    decide
  exact ⟨_, hmem, aggregation_never_null exDB2 [2] _ hmem⟩

/-- C5: the overnight-ratio `CASE` expression stores the sentinel `-1.0000`
whenever the total volume equals 0, stores `ROUND(1 - overnight/volume, 4)`
whenever the total volume is a non-zero number, and its divisor
`NULLIF(volume, 0)` is never the number 0 (so no division by zero is ever
performed); both the account builder and the summary builder store exactly
this expression of their volume columns. -/
theorem overnight_ratio_sentinel :
    (∀ (v : Q) (ov : Option Q), qeq v qZero = true →
        ratioExpr (some v) ov = some qNeg1s4) ∧
    (∀ (v o : Q), qeq v qZero = false →
        ratioExpr (some v) (some o) = some (round4 (qSub (qOfInt 1) (qDiv o v)))) ∧
    (∀ (vol : Option Q) (v : Q), sqlNullif0 vol = some v → qeq v qZero = false) ∧
    (∀ (db : DB) (candIds : List Int), ∀ r ∈ rolled_rows db candIds,
        r.auto_swap_free_status = ratioExpr r.volume_lots r.overnight_volume_lots) ∧
    (∀ (accounts : List AccountRow) (candIds : List Int) (fxmap : List FxMapRow),
        ∀ srow ∈ summary_rows accounts candIds fxmap,
        srow.auto_swap_free_status
          = ratioExpr srow.total_volume_lots srow.total_overnight_volume_lots) := by
  refine ⟨?_, ?_, ?_, ?_, ?_⟩
  · intro v ov h
    simp [ratioExpr, sqlIsZero, h]
  · intro v o h
    simp [ratioExpr, sqlIsZero, sqlNullif0, sqlDivOpt, sqlSub, sqlRound4, h]
  · intro vol v h
    cases vol with
    | none => cases h
    | some w =>
      unfold sqlNullif0 at h
      have h' : (if qeq w qZero then none else some w) = some v := h
      by_cases hw : qeq w qZero = true
      · rw [if_pos hw] at h'; cases h'
      · rw [if_neg hw] at h'
        simp only [Option.some.injEq] at h'
        subst h'
        exact Bool.eq_false_iff.mpr hw
  · intro db candIds r h
    obtain ⟨c, l, r0, rest, _, rfl⟩ := rolled_rows_inv h
    rfl
  · intro accounts candIds fxmap srow h
    obtain ⟨c, a0, rest, _, rfl⟩ := summary_rows_inv h
    rfl

/-- Witness for C5: the sentinel case with volume 0, the regular case with
volume 4 and overnight 1, the `NULLIF` guard, and the account row of `exDB2`. -/
theorem overnight_ratio_sentinel_witness :
    ratioExpr (some qZero) (some qZero) = some qNeg1s4 ∧
    ratioExpr (some ⟨4, 1⟩) (some ⟨1, 1⟩)
      = some (round4 (qSub (qOfInt 1) (qDiv ⟨1, 1⟩ ⟨4, 1⟩))) ∧
    qeq ⟨4, 1⟩ qZero = false ∧
    (mkRolled 2 20 (combineRow 2 exSrcCEN "MT5") []).auto_swap_free_status
      = ratioExpr (mkRolled 2 20 (combineRow 2 exSrcCEN "MT5") []).volume_lots
          (mkRolled 2 20 (combineRow 2 exSrcCEN "MT5") []).overnight_volume_lots := by
  refine ⟨?_, ?_, by decide, ?_⟩
  · exact overnight_ratio_sentinel.1 qZero (some qZero) (by decide)
  · exact overnight_ratio_sentinel.2.1 ⟨4, 1⟩ ⟨1, 1⟩ (by decide)
  · exact overnight_ratio_sentinel.2.2.2.1 exDB2 [2] _ (by decide)

/-- C7: the orphan-reconciler delete removes only rows whose `client_id` is in
the candidate set and for which no source row with the same `(user_id, login)`
exists in any source-of-truth table; it never adds rows, every row of a
non-candidate client survives, and every row that still has a backing source
row survives. -/
theorem orphan_reconciler_scope (db : DB) (candIds : List Int)
    (accounts : List AccountRow) :
    (∀ a ∈ delete_orphan_accounts_for_candidates db candIds accounts, a ∈ accounts) ∧
    (∀ a ∈ accounts, ¬ a.client_id ∈ candIds →
        a ∈ delete_orphan_accounts_for_candidates db candIds accounts) ∧
    (∀ a ∈ accounts, hasSourceLogin db a.client_id a.login = true →
        a ∈ delete_orphan_accounts_for_candidates db candIds accounts) ∧
    (∀ a ∈ accounts, ¬ a ∈ delete_orphan_accounts_for_candidates db candIds accounts →
        a.client_id ∈ candIds ∧ hasSourceLogin db a.client_id a.login = false) := by
  refine ⟨?_, ?_, ?_, ?_⟩
  · intro a ha
    unfold delete_orphan_accounts_for_candidates at ha
    exact (List.mem_filter.mp ha).1
  · intro a ha hnc
    unfold delete_orphan_accounts_for_candidates
    rw [List.mem_filter]
    refine ⟨ha, ?_⟩
    simp [hnc]
  · intro a ha hsrc
    unfold delete_orphan_accounts_for_candidates
    rw [List.mem_filter]
    refine ⟨ha, ?_⟩
    simp [hsrc]
  · intro a ha hdel
    unfold delete_orphan_accounts_for_candidates at hdel
    rw [List.mem_filter] at hdel
    by_cases hc : a.client_id ∈ candIds
    · refine ⟨hc, ?_⟩
      by_cases hs : hasSourceLogin db a.client_id a.login = true
      · exact absurd ⟨ha, by simp [hs]⟩ hdel
      · exact Bool.eq_false_iff.mpr hs
    · exact absurd ⟨ha, by simp [hc]⟩ hdel

/-- Witness for C7: client 2 is not a candidate, so its account row survives
the delete even though no source row backs it. -/
theorem orphan_reconciler_witness :
    ({ client_id := 2, login := 5, server := "MT5" } : AccountRow) ∈
      delete_orphan_accounts_for_candidates ({} : DB) [1]
        [{ client_id := 2, login := 5, server := "MT5" }] := by
  exact (orphan_reconciler_scope ({} : DB) [1]
      [{ client_id := 2, login := 5, server := "MT5" }]).2.1 _ (by decide) (by decide)

/-- C9: whenever the refresh returns a failure result (which in the model
happens exactly when some step raised), the returned database state is the
unmodified input — the transaction was rolled back, no aggregate table mixes
old and new data and the watermark table is untouched — and the result carries
`success = false` with a human-readable message embedding the underlying
error text instead of a propagated exception. -/
theorem refresh_failure_atomicity (fault : Nat → Option String) (db : DB)
    (r : RefreshResult) (db2 : DB)
    (h : run_client_pnl_incremental_refresh fault db = (r, db2))
    (hf : r.success = false) :
    db2 = db ∧ ∃ m, r.message = "Incremental refresh failed: " ++ m ∧
      r.raw_log = some m ∧ ∃ k, fault k = some m := by
  unfold run_client_pnl_incremental_refresh at h
  cases h1 : fault 1 with
  | some m =>
    rw [h1] at h
    have h' : ((failResult m, db) : RefreshResult × DB) = (r, db2) := h
    injection h' with hr hdb
    subst hr; subst hdb
    exact ⟨rfl, m, rfl, rfl, 1, h1⟩
  | none =>
    rw [h1] at h
    cases h2 : fault 2 with
    | some m =>
      rw [h2] at h
      have h' : ((failResult m, db) : RefreshResult × DB) = (r, db2) := h
      injection h' with hr hdb
      subst hr; subst hdb
      exact ⟨rfl, m, rfl, rfl, 2, h2⟩
    | none =>
      rw [h2] at h
      by_cases hc : (stage_candidates db).length = 0
      · rw [if_pos hc] at h
        have h' : ((noopResult, db) : RefreshResult × DB) = (r, db2) := h
        injection h' with hr _
        rw [← hr] at hf
        exact absurd hf (by decide)
      · rw [if_neg hc] at h
        cases h3 : fault 3 with
        | some m =>
          rw [h3] at h
          have h' : ((failResult m, db) : RefreshResult × DB) = (r, db2) := h
          injection h' with hr hdb
          subst hr; subst hdb
          exact ⟨rfl, m, rfl, rfl, 3, h3⟩
        | none =>
          rw [h3] at h
          cases h4 : fault 4 with
          | some m =>
            rw [h4] at h
            have h' : ((failResult m, db) : RefreshResult × DB) = (r, db2) := h
            injection h' with hr hdb
            subst hr; subst hdb
            exact ⟨rfl, m, rfl, rfl, 4, h4⟩
          | none =>
            rw [h4] at h
            cases h5 : fault 5 with
            | some m =>
              rw [h5] at h
              have h' : ((failResult m, db) : RefreshResult × DB) = (r, db2) := h
              injection h' with hr hdb
              subst hr; subst hdb
              exact ⟨rfl, m, rfl, rfl, 5, h5⟩
            | none =>
              rw [h5] at h
              cases h6 : fault 6 with
              | some m =>
                rw [h6] at h
                have h' : ((failResult m, db) : RefreshResult × DB) = (r, db2) := h
                injection h' with hr hdb
                subst hr; subst hdb
                exact ⟨rfl, m, rfl, rfl, 6, h6⟩
              | none =>
                rw [h6] at h
                cases h7 : fault 7 with
                | some m =>
                  rw [h7] at h
                  have h' : ((failResult m, db) : RefreshResult × DB) = (r, db2) := h
                  injection h' with hr hdb
                  subst hr; subst hdb
                  exact ⟨rfl, m, rfl, rfl, 7, h7⟩
                | none =>
                  rw [h7] at h
                  have hs : (true : Bool) = r.success :=
                    congrArg (fun p => p.1.success) h
                  rw [← hs] at hf
                  cases hf

/-- Witness for C9: a run in which every step raises `"boom"`: step 1 fires,
the state is unchanged and the failure result embeds the message. -/
theorem refresh_failure_atomicity_witness :
    (run_client_pnl_incremental_refresh (fun _ : Nat => some "boom") exDB1).2 = exDB1 ∧
    ∃ m, (run_client_pnl_incremental_refresh (fun _ : Nat => some "boom") exDB1).1.message
          = "Incremental refresh failed: " ++ m ∧
      (run_client_pnl_incremental_refresh (fun _ : Nat => some "boom") exDB1).1.raw_log
          = some m ∧
      ∃ k : Nat, (fun _ : Nat => some "boom") k = some m :=
  refresh_failure_atomicity (fun _ : Nat => some "boom") exDB1
    (run_client_pnl_incremental_refresh (fun _ : Nat => some "boom") exDB1).1
    (run_client_pnl_incremental_refresh (fun _ : Nat => some "boom") exDB1).2
    rfl (by decide)

/-! Key-uniqueness and membership lemmas for the two upserts. -/

theorem nodup_map_filterMap {α β : Type} [DecidableEq α] (f : α → Option β) (g : β → α)
    (l : List α) (hl : l.Nodup) (hfg : ∀ a b, f a = some b → g b = a) :
    ((l.filterMap f).map g).Nodup := by
  induction l with
  | nil => simp
  | cons x xs ih =>
    rw [List.filterMap_cons]
    rcases List.nodup_cons.mp hl with ⟨hx, hxs⟩
    cases hfx : f x with
    | none => exact ih hxs
    | some b =>
      rw [List.map_cons, List.nodup_cons]
      refine ⟨?_, ih hxs⟩
      intro hmem
      rcases List.mem_map.mp hmem with ⟨b', hb', hgb⟩
      rcases List.mem_filterMap.mp hb' with ⟨a, ha, hfa⟩
      have hga : g b' = a := hfg a b' hfa
      have hgx : g b = x := hfg x b hfx
      apply hx
      rw [← hgx, ← hgb, hga]
      exact ha

theorem rolled_pairs_nodup (db : DB) (candIds : List Int) :
    ((rolled_rows db candIds).map (fun r => (r.client_id, r.login))).Nodup := by
  unfold rolled_rows
  apply nodup_map_filterMap _ _ _ (List.nodup_dedup _)
  intro k r hk
  cases hg : groupOf db candIds k.1 k.2 with
  | nil => rw [hg] at hk; cases hk
  | cons r0 rest =>
    rw [hg] at hk
    simp only [Option.some.injEq] at hk
    rw [← hk]
    rfl

theorem rolled_accountKey_nodup (db : DB) (candIds : List Int) :
    ((rolled_rows db candIds).map accountKey).Nodup := by
  have h := rolled_pairs_nodup db candIds
  have heq : (rolled_rows db candIds).map (fun r => (r.client_id, r.login))
      = ((rolled_rows db candIds).map accountKey).map (fun p => (p.1, p.2.1)) := by
    rw [List.map_map]
    rfl
  rw [heq] at h
  exact List.Nodup.of_map _ h

theorem summary_rows_keys_nodup (accounts : List AccountRow) (candIds : List Int)
    (fxmap : List FxMapRow) :
    ((summary_rows accounts candIds fxmap).map summaryKey).Nodup := by
  unfold summary_rows
  apply nodup_map_filterMap _ _ _ (List.nodup_dedup _)
  intro c row hc
  cases hg : sgroupOf accounts candIds c with
  | nil => rw [hg] at hc; cases hc
  | cons a0 rest =>
    rw [hg] at hc
    simp only [Option.some.injEq] at hc
    rw [← hc]
    rfl

theorem summary_rows_keys_sub {accounts : List AccountRow} {candIds : List Int}
    {fxmap : List FxMapRow} {srow : SummaryRow}
    (h : srow ∈ summary_rows accounts candIds fxmap) : srow.client_id ∈ candIds := by
  unfold summary_rows at h
  rcases List.mem_filterMap.mp h with ⟨c, hc, hr⟩
  cases hg : sgroupOf accounts candIds c with
  | nil => rw [hg] at hr; cases hr
  | cons a0 rest =>
    rw [hg] at hr
    simp only [Option.some.injEq] at hr
    have hc' : a0 ∈ sgroupOf accounts candIds c := hg ▸ List.mem_cons_self _ _
    unfold sgroupOf joinedAccounts at hc'
    rw [List.mem_filter] at hc'
    have hj := List.mem_filter.mp hc'.1
    have ha0 : a0.client_id ∈ candIds := by simpa using hj.2
    have hcc : a0.client_id = c := by simpa using hc'.2
    rw [← hr]
    show c ∈ candIds
    rw [← hcc]
    exact ha0

/-- Every rolled account row corresponds to at least one surviving source row
with the same `(user_id, login)`, so the orphan delete keeps it. -/
theorem rolled_hasSource {db : DB} {candIds : List Int} {r : AccountRow}
    (h : r ∈ rolled_rows db candIds) : hasSourceLogin db r.client_id r.login = true := by
  obtain ⟨c, l, r0, rest, hg, rfl⟩ := rolled_rows_inv h
  have hmem : r0 ∈ groupOf db candIds c l := hg ▸ List.mem_cons_self _ _
  unfold groupOf at hmem
  rw [List.mem_filter] at hmem
  obtain ⟨u, s, server, hsrc, hu, _, rfl⟩ := combinedRows_inv hmem.1
  have hkey := hmem.2
  simp only [Bool.and_eq_true, decide_eq_true_eq] at hkey
  unfold hasSourceLogin
  refine List.any_eq_true.mpr ⟨s, ?_, ?_⟩
  · rcases hsrc with hs | hs
    · exact List.mem_append_left _ hs
    · exact List.mem_append_right _ hs
  · have h1 : (combineRow u s server).client_id = u := rfl
    have h2 : (combineRow u s server).login = s.login := rfl
    simp only [Bool.and_eq_true, decide_eq_true_eq]
    constructor
    · show s.user_id = some (mkRolled c l (combineRow u s server) rest).client_id
      rw [show (mkRolled c l (combineRow u s server) rest).client_id = c from rfl, ← hkey.1, h1]
      exact hu
    · show s.login = (mkRolled c l (combineRow u s server) rest).login
      rw [show (mkRolled c l (combineRow u s server) rest).login = l from rfl, ← hkey.2, h2]

theorem mem_delete_orphan_of_source {db : DB} {candIds : List Int}
    {accounts : List AccountRow} {a : AccountRow} (ha : a ∈ accounts)
    (hs : hasSourceLogin db a.client_id a.login = true) :
    a ∈ delete_orphan_accounts_for_candidates db candIds accounts := by
  unfold delete_orphan_accounts_for_candidates
  rw [List.mem_filter]
  exact ⟨ha, by simp [hs]⟩

/-- Every `combined` row contributes to a rolled account row for its
`(client_id, login)` key, whose `MAX(last_updated)` dominates the row's own
timestamp. -/
theorem mem_rolled_of_combined {db : DB} {candIds : List Int} {x : CombinedRow}
    (hx : x ∈ combinedRows db candIds) :
    ∃ r ∈ rolled_rows db candIds, r.client_id = x.client_id ∧ r.login = x.login ∧
      (∀ ts : Int, x.last_updated = some ts →
        ∃ m, r.last_updated = some m ∧ ts ≤ m) := by
  have hk : (x.client_id, x.login) ∈ pairKeys db candIds := by
    unfold pairKeys
    rw [List.mem_dedup]
    exact List.mem_map.mpr ⟨x, hx, rfl⟩
  have hxg : x ∈ groupOf db candIds x.client_id x.login := by
    unfold groupOf
    rw [List.mem_filter]
    exact ⟨hx, by simp⟩
  cases hg : groupOf db candIds x.client_id x.login with
  | nil => rw [hg] at hxg; cases hxg
  | cons r0 rest =>
    refine ⟨mkRolled x.client_id x.login r0 rest, ?_, rfl, rfl, ?_⟩
    · unfold rolled_rows
      exact List.mem_filterMap.mpr ⟨(x.client_id, x.login), hk, by rw [hg]⟩
    · intro ts hts
      rw [hg] at hxg
      have hmem : ts ∈ (r0 :: rest).filterMap (fun y => y.last_updated) :=
        List.mem_filterMap.mpr ⟨x, hxg, hts⟩
      exact listMaxInt_ge hmem

/-- Every source row of a candidate yields, after the account upsert and the
orphan delete, an account row for the same client and login whose
`last_updated` dominates the source row's timestamp. -/
theorem mem_accounts_of_source {db : DB} {candIds : List Int} {s : SourceRow} {u : Int}
    (hs : s ∈ db.src_mt5 ∨ s ∈ db.src_mt4) (hu : s.user_id = some u) (hc : u ∈ candIds) :
    ∃ r ∈ delete_orphan_accounts_for_candidates db candIds
        (build_accounts_for_candidates db candIds),
      r.client_id = u ∧ r.login = s.login ∧
      (∀ ts : Int, s.last_updated = some ts →
        ∃ m, r.last_updated = some m ∧ ts ≤ m) := by
  have hx : ∃ server, combineRow u s server ∈ combinedRows db candIds := by
    rcases hs with h5 | h4
    · exact ⟨"MT5", mem_combinedRows_mt5 h5 hu hc⟩
    · exact ⟨"MT4Live2", mem_combinedRows_mt4 h4 hu hc⟩
  obtain ⟨server, hx⟩ := hx
  obtain ⟨r, hr, hcid, hlog, hlu⟩ := mem_rolled_of_combined hx
  have hr1 : r ∈ build_accounts_for_candidates db candIds :=
    foldl_upsertBy_mem_insert accountKey _ db.accounts (rolled_accountKey_nodup db candIds) hr
  have hr2 : r ∈ delete_orphan_accounts_for_candidates db candIds
      (build_accounts_for_candidates db candIds) :=
    mem_delete_orphan_of_source hr1 (rolled_hasSource hr)
  exact ⟨r, hr2, hcid, hlog, fun ts hts => hlu ts hts⟩

theorem summary_rows_exists_of_account {accounts : List AccountRow} {candIds : List Int}
    (fxmap : List FxMapRow) {c : Int} {a : AccountRow}
    (ha : a ∈ accounts) (hacl : a.client_id = c) (hc : c ∈ candIds) :
    ∃ a0 rest, sgroupOf accounts candIds c = a0 :: rest ∧
      mkSummaryRow c a0 rest (findFx fxmap c) ∈ summary_rows accounts candIds fxmap := by
  subst hacl
  have hmem : a ∈ sgroupOf accounts candIds a.client_id := by
    unfold sgroupOf joinedAccounts
    rw [List.mem_filter]
    exact ⟨List.mem_filter.mpr ⟨ha, by simp [hc]⟩, by simp⟩
  cases hg : sgroupOf accounts candIds a.client_id with
  | nil => rw [hg] at hmem; cases hmem
  | cons a0 rest =>
    refine ⟨a0, rest, rfl, ?_⟩
    unfold summary_rows
    refine List.mem_filterMap.mpr ⟨a.client_id, ?_, by rw [hg]⟩
    rw [List.mem_dedup]
    refine List.mem_map.mpr ⟨a, ?_, rfl⟩
    unfold joinedAccounts
    exact List.mem_filter.mpr ⟨ha, by simp [hc]⟩

/-- The `last_updated` of a rebuilt summary row dominates the `last_updated`
of every account row of its client in the aggregated table. -/
theorem summary_row_lu_ge {accounts : List AccountRow} {candIds : List Int}
    {fxmap : List FxMapRow} {srow : SummaryRow}
    (h : srow ∈ summary_rows accounts candIds fxmap)
    {a : AccountRow} (ha : a ∈ accounts) (hcl : a.client_id = srow.client_id)
    (hc : srow.client_id ∈ candIds)
    {ts : Int} (hts : a.last_updated = some ts) :
    ∃ M, srow.last_updated = some M ∧ ts ≤ M := by
  obtain ⟨c, a0, rest, hg, rfl⟩ := summary_rows_inv h
  have hcc : a.client_id = c := hcl
  have hcand : c ∈ candIds := hc
  have hmem : a ∈ sgroupOf accounts candIds c := by
    unfold sgroupOf joinedAccounts
    rw [List.mem_filter]
    refine ⟨List.mem_filter.mpr ⟨ha, ?_⟩, by simp [hcc]⟩
    rw [hcc]
    simp [hcand]
  rw [hg] at hmem
  have hmem2 : ts ∈ (a0 :: rest).filterMap (fun y => y.last_updated) :=
    List.mem_filterMap.mpr ⟨a, hmem, hts⟩
  exact listMaxInt_ge hmem2

/-! Orchestrator-level helper lemmas. -/

theorem run_refresh_noop_of_empty (d : DB) (h : stage_candidates d = []) :
    run_client_pnl_incremental_refresh noFault d = (noopResult, d) := by
  simp only [run_client_pnl_incremental_refresh, noFault]
  rw [if_pos]
  rw [h]
  rfl

theorem run_refresh_snd_of_nonempty (db : DB)
    (hc : ¬ (stage_candidates db).length = 0) :
    (run_client_pnl_incremental_refresh noFault db).2 =
      { db with
        accounts := delete_orphan_accounts_for_candidates db
          ((stage_candidates db).map (fun c => c.client_id))
          (build_accounts_for_candidates db
            ((stage_candidates db).map (fun c => c.client_id)))
        summary := build_summary_for_candidates db
          (delete_orphan_accounts_for_candidates db
            ((stage_candidates db).map (fun c => c.client_id))
            (build_accounts_for_candidates db
              ((stage_candidates db).map (fun c => c.client_id))))
          ((stage_candidates db).map (fun c => c.client_id))
          (fetch_mysql_fx_users_map db
            ((stage_candidates db).map (fun c => c.client_id))) } := by
  simp only [run_client_pnl_incremental_refresh, noFault]
  rw [if_neg hc]

/-- After the account upsert and orphan delete, every candidate client that
exists in a source table gets a freshly rebuilt summary row. -/
theorem summary_upsert_covers (db : DB) (candIds : List Int) (fxm : List FxMapRow)
    (i : Int) (hi : i ∈ sourceIds db) (hci : i ∈ candIds) :
    ∃ srow ∈ summary_rows (delete_orphan_accounts_for_candidates db candIds
        (build_accounts_for_candidates db candIds)) candIds fxm,
      srow.client_id = i := by
  unfold sourceIds at hi
  rw [List.mem_dedup] at hi
  rcases List.mem_filterMap.mp hi with ⟨s, hsmem, hsid⟩
  obtain ⟨r, hrA2, hrc, _, _⟩ :=
    mem_accounts_of_source (List.mem_append.mp hsmem) hsid hci
  obtain ⟨a0, rest, hg, hmem⟩ := summary_rows_exists_of_account fxm hrA2 hrc hci
  exact ⟨_, hmem, rfl⟩

/-- A rebuilt summary row is never selected by the lag rule against the
unchanged source tables: its `last_updated` is the maximum over account rows
that include, for each source row of the client, a fresh row dominating that
source row's timestamp. -/
theorem summary_rows_not_lag (db : DB) (candIds : List Int) (fxm : List FxMapRow)
    {srow : SummaryRow}
    (h : srow ∈ summary_rows (delete_orphan_accounts_for_candidates db candIds
        (build_accounts_for_candidates db candIds)) candIds fxm) :
    optGT (srcMax db srow.client_id) srow.last_updated = false := by
  cases hmax : srcMax db srow.client_id with
  | none => cases hlu : srow.last_updated <;> simp [optGT]
  | some a =>
    have hc : srow.client_id ∈ candIds := summary_rows_keys_sub h
    have ha := listMaxInt_mem hmax
    rcases List.mem_filterMap.mp ha with ⟨s, hsr, hslu⟩
    unfold srcRowsFor at hsr
    rw [List.mem_filter] at hsr
    have hsid : s.user_id = some srow.client_id := by simpa using hsr.2
    obtain ⟨r, hrA2, hrc, _, hlub⟩ :=
      mem_accounts_of_source (List.mem_append.mp hsr.1) hsid hc
    obtain ⟨m, hm, ham⟩ := hlub a hslu
    obtain ⟨M, hM, hmM⟩ := summary_row_lu_ge h hrA2 hrc hc hm
    rw [hM]
    simp only [optGT, decide_eq_false_iff_not]
    omega

/-- C6: running the refresh twice in succession with no source changes in
between yields an empty candidate set on the second run, and the second run
therefore returns the no-op success outcome immediately (success, the
"No candidates" message, only the watermark and candidates steps, no
aggregation) and leaves the whole database state unchanged. -/
theorem refresh_idempotent (db : DB) :
    stage_candidates (run_client_pnl_incremental_refresh noFault db).2 = [] ∧
    run_client_pnl_incremental_refresh noFault
        (run_client_pnl_incremental_refresh noFault db).2
      = (noopResult, (run_client_pnl_incremental_refresh noFault db).2) := by
  have hmain : stage_candidates (run_client_pnl_incremental_refresh noFault db).2 = [] := by
    by_cases hc : (stage_candidates db).length = 0
    · have h0 : stage_candidates db = [] := List.length_eq_zero.mp hc
      rw [run_refresh_noop_of_empty db h0]
      exact h0
    · rw [run_refresh_snd_of_nonempty db hc]
      set candIds := (stage_candidates db).map (fun c => c.client_id) with hcandIds
      set A1 := build_accounts_for_candidates db candIds with hA1
      set A2 := delete_orphan_accounts_for_candidates db candIds A1 with hA2
      set fxm := fetch_mysql_fx_users_map db candIds with hfxm
      set S1 := build_summary_for_candidates db A2 candIds fxm with hS1
      have hS1' : S1 = (summary_rows A2 candIds fxm).foldl (upsertBy summaryKey) db.summary := by
        rw [hS1]
        rfl
      have hins : ∀ srow ∈ summary_rows A2 candIds fxm, srow ∈ S1 := by
        intro srow hsrow
        rw [hS1']
        exact foldl_upsertBy_mem_insert summaryKey _ _
          (summary_rows_keys_nodup A2 candIds fxm) hsrow
      have hcov : ∀ i, i ∈ sourceIds db → i ∈ candIds →
          ∃ srow ∈ summary_rows A2 candIds fxm, srow.client_id = i := by
        intro i hi hci
        rw [hA2, hA1]
        exact summary_upsert_covers db candIds fxm i hi hci
      have hmiss : missingList { db with accounts := A2, summary := S1 } = [] := by
        unfold missingList
        rw [List.map_eq_nil_iff, List.filter_eq_nil_iff]
        intro i hi
        have hi' : i ∈ sourceIds db := hi
        simp only [decide_eq_true_eq, not_not]
        show i ∈ S1.map (fun s => s.client_id)
        by_cases hci : i ∈ candIds
        · obtain ⟨srow, hsrow, hsid⟩ := hcov i hi' hci
          exact List.mem_map.mpr ⟨srow, hins srow hsrow, hsid⟩
        · have hsum : i ∈ summaryIds db := by
            by_contra hnot
            exact hci (stage_ids_of_missing db i hi' hnot)
          rcases List.mem_map.mp hsum with ⟨srow0, hs0, hsid0⟩
          have hmem0 : srow0 ∈ S1 := by
            rw [hS1']
            refine foldl_upsertBy_mem_of_ne summaryKey _ _ hs0 ?_
            intro row hrow hkey
            apply hci
            have hrc : row.client_id ∈ candIds := summary_rows_keys_sub hrow
            have : row.client_id = i := by
              rw [show summaryKey row = row.client_id from rfl] at hkey
              rw [show summaryKey srow0 = srow0.client_id from rfl] at hkey
              rw [hkey, hsid0]
            rw [← this]
            exact hrc
          exact List.mem_map.mpr ⟨srow0, hmem0, hsid0⟩
      have hlag : lagList { db with accounts := A2, summary := S1 } = [] := by
        unfold lagList
        rw [List.map_eq_nil_iff, List.filter_eq_nil_iff]
        intro srow hsrow
        have hs1 : srow ∈ S1 := hsrow
        have hfalse : optGT (srcMax db srow.client_id) srow.last_updated = false := by
          rw [hS1'] at hs1
          rcases foldl_upsertBy_inv summaryKey _ _ hs1 with hnew | ⟨hold, hne⟩
          · rw [hA2, hA1] at hnew
            exact summary_rows_not_lag db candIds fxm hnew
          · have hnc : ¬ srow.client_id ∈ candIds := by
              intro hci
              have hsrcid : srow.client_id ∈ sourceIds db := by
                rw [hcandIds] at hci
                exact stage_ids_sub_source db _ hci
              obtain ⟨row, hrow, hrowid⟩ := hcov srow.client_id hsrcid hci
              exact hne row hrow (by
                rw [show summaryKey row = row.client_id from rfl, hrowid]
                rfl)
            rw [hcandIds] at hnc
            exact not_lag_of_not_stage db srow hold hnc
        show ¬ ((decide (srow.client_id ∈ sourceIds db) &&
            optGT (srcMax db srow.client_id) srow.last_updated) = true)
        rw [hfalse]
        simp
      show (missingList { db with accounts := A2, summary := S1 } ++
          lagList { db with accounts := A2, summary := S1 }).foldl insertCand [] = []
      rw [hmiss, hlag]
      rfl
  refine ⟨hmain, ?_⟩
  exact run_refresh_noop_of_empty _ hmain

/-- C1 counterexample: in `exDB1` client 1 is a candidate, the mapping fetch
returns no row for it (the `users` table is empty), and the summary row
already holds `zipcode = '12345'` and `is_enabled = 0`; the refresh overwrites
the zipcode to NULL and the enabled flag to the constant default 1 instead of
leaving the existing values unchanged. -/
theorem mapping_absence_counterexample :
    exDB1.fx_users = [] ∧
    (exDB1.summary.map (fun s => (s.client_id, s.zipcode, s.is_enabled)))
      = [(1, some "12345", some 0)] ∧
    ((run_client_pnl_incremental_refresh noFault exDB1).2.summary.map
        (fun s => (s.client_id, s.zipcode, s.is_enabled)))
      = [(1, none, some 1)] := by
  refine ⟨rfl, rfl, by decide⟩

theorem mkSummaryRow_no_mapping (c : Int) (a0 : AccountRow) (rest : List AccountRow) :
    (mkSummaryRow c a0 rest none).zipcode = none ∧
    (mkSummaryRow c a0 rest none).is_enabled = some 1 :=
  ⟨rfl, rfl⟩

/-- C1 (amended): for every candidate entity for which the cross-store
mapping fetch returns no row, the refresh does not preserve the existing
summary enrichment values: the rebuilt summary row for that entity has
`zipcode = NULL` (the left join's null is written through) and
`is_enabled = 1` (the `COALESCE(m.is_enabled, 1)` default), regardless of the
previously stored values. -/
theorem mapping_absence_overwrites (db : DB) (c : Candidate)
    (hc : c ∈ stage_candidates db)
    (hfx : ∀ u ∈ db.fx_users, u.id ≠ c.client_id) :
    (∃ srow ∈ (run_client_pnl_incremental_refresh noFault db).2.summary,
        srow.client_id = c.client_id) ∧
    (∀ srow ∈ (run_client_pnl_incremental_refresh noFault db).2.summary,
        srow.client_id = c.client_id →
        srow.zipcode = none ∧ srow.is_enabled = some 1) := by
  have hci : c.client_id ∈ (stage_candidates db).map (fun x => x.client_id) :=
    List.mem_map_of_mem _ hc
  have hlen : ¬ (stage_candidates db).length = 0 := by
    intro h0
    rw [List.length_eq_zero.mp h0] at hc
    cases hc
  rw [run_refresh_snd_of_nonempty db hlen]
  set candIds := (stage_candidates db).map (fun x => x.client_id) with hcandIds
  set A1 := build_accounts_for_candidates db candIds with hA1
  set A2 := delete_orphan_accounts_for_candidates db candIds A1 with hA2
  set fxm := fetch_mysql_fx_users_map db candIds with hfxm
  set S1 := build_summary_for_candidates db A2 candIds fxm with hS1
  have hS1' : S1 = (summary_rows A2 candIds fxm).foldl (upsertBy summaryKey) db.summary := by
    rw [hS1]
    rfl
  have hciC : c.client_id ∈ candIds := hci
  have hsrcid : c.client_id ∈ sourceIds db := stage_ids_sub_source db _ hci
  have hcov : ∃ srow ∈ summary_rows A2 candIds fxm, srow.client_id = c.client_id := by
    rw [hA2, hA1]
    exact summary_upsert_covers db candIds fxm c.client_id hsrcid hciC
  have hins : ∀ srow ∈ summary_rows A2 candIds fxm, srow ∈ S1 := by
    intro srow hsrow
    rw [hS1']
    exact foldl_upsertBy_mem_insert summaryKey _ _
      (summary_rows_keys_nodup A2 candIds fxm) hsrow
  have hfind : findFx fxm c.client_id = none := by
    rw [hfxm]
    unfold findFx fetch_mysql_fx_users_map
    rw [List.find?_eq_none]
    intro m hm
    rcases List.mem_filterMap.mp hm with ⟨u, hu, hmu⟩
    by_cases hin : u.id ∈ candIds
    · rw [if_pos hin] at hmu
      simp only [Option.some.injEq] at hmu
      have : m.client_id = u.id := by rw [← hmu]
      simp only [decide_eq_true_eq, this]
      exact hfx u hu
    · rw [if_neg hin] at hmu
      cases hmu
  constructor
  · obtain ⟨row, hrow, hrowid⟩ := hcov
    exact ⟨row, hins row hrow, hrowid⟩
  · intro srow hsrow hsid
    have hs1 : srow ∈ S1 := hsrow
    rw [hS1'] at hs1
    rcases foldl_upsertBy_inv summaryKey _ _ hs1 with hnew | ⟨hold, hne⟩
    · obtain ⟨c', a0, rest, hg, rfl⟩ := summary_rows_inv hnew
      have hc' : c' = c.client_id := hsid
      rw [hc', hfind]
      exact mkSummaryRow_no_mapping c.client_id a0 rest
    · exfalso
      obtain ⟨row, hrow, hrowid⟩ := hcov
      refine hne row hrow ?_
      show row.client_id = srow.client_id
      rw [hrowid, hsid]

/-- Witness for the amended C1 on `exDB1`: the lagging candidate client 1 has
no mapping row; its rebuilt summary row exists with NULL zipcode and
is_enabled 1. -/
theorem mapping_absence_overwrites_witness :
    (∃ srow ∈ (run_client_pnl_incremental_refresh noFault exDB1).2.summary,
        srow.client_id = ({ client_id := 1, reason := "lag" } : Candidate).client_id) ∧
    (∀ srow ∈ (run_client_pnl_incremental_refresh noFault exDB1).2.summary,
        srow.client_id = ({ client_id := 1, reason := "lag" } : Candidate).client_id →
        srow.zipcode = none ∧ srow.is_enabled = some 1) :=
  mapping_absence_overwrites exDB1 { client_id := 1, reason := "lag" }
    (by decide) (by decide)

/-! Single-flight invariant lemmas. -/

theorem countP_set_add {α : Type} (p : α → Bool) (l : List α) (i : Nat) (a b : α)
    (h : l.get? i = some a) :
    (l.set i b).countP p + (if p a then 1 else 0)
      = l.countP p + (if p b then 1 else 0) := by
  induction l generalizing i with
  | nil => cases h
  | cons x xs ih =>
    cases i with
    | zero =>
      simp only [List.get?] at h
      injection h with h
      subst h
      simp only [List.set, List.countP_cons]
      omega
    | succ k =>
      simp only [List.get?] at h
      simp only [List.set, List.countP_cons]
      have := ih k h
      omega

theorem nRun_init {ω : Type} (n : Nat) : nRun (sfInit ω n) = 0 := by
  refine List.countP_eq_zero.mpr ?_
  intro t ht
  have ht' : t ∈ List.replicate n (SFThread.start : SFThread ω) := ht
  rw [List.eq_of_mem_replicate ht']
  simp

theorem nClean_init {ω : Type} (n : Nat) : nClean (sfInit ω n) = 0 := by
  refine List.countP_eq_zero.mpr ?_
  intro t ht
  have ht' : t ∈ List.replicate n (SFThread.start : SFThread ω) := ht
  rw [List.eq_of_mem_replicate ht']
  simp

theorem sfInit_inv {ω : Type} (fn : ω) (n : Nat) : SFInv fn n (sfInit ω n) := by
  unfold SFInv
  rw [nRun_init, nClean_init]
  refine ⟨List.length_replicate n _, ?_, ?_, ?_, rfl, rfl, ?_, ?_, ?_, ?_, ?_⟩
  · intro p hp
    cases hp
  · intro t ht r heq
    have ht' : t ∈ List.replicate n (SFThread.start : SFThread ω) := ht
    rw [List.eq_of_mem_replicate ht'] at heq
    cases heq
  · intro t ht c r heq
    have ht' : t ∈ List.replicate n (SFThread.start : SFThread ω) := ht
    rw [List.eq_of_mem_replicate ht'] at heq
    cases heq
  · intro _
    rfl
  · intro h
    cases h
  · intro _
    rfl
  · intro h
    cases h
  · rintro ⟨t, ht, hne⟩
    have ht' : t ∈ List.replicate n (SFThread.start : SFThread ω) := ht
    exact absurd (List.eq_of_mem_replicate ht') hne

theorem nRun_update {ω : Type} (s s' : SFState ω) (i : Nat) (a b : SFThread ω)
    (hth : s'.threads = s.threads.set i b) (h : s.threads.get? i = some a) :
    nRun s' + (if (match a with | SFThread.ownerRun _ => true | _ => false) then 1 else 0)
      = nRun s + (if (match b with | SFThread.ownerRun _ => true | _ => false) then 1 else 0) := by
  unfold nRun
  rw [hth]
  exact countP_set_add _ _ i a b h

theorem nClean_update {ω : Type} (s s' : SFState ω) (i : Nat) (a b : SFThread ω)
    (hth : s'.threads = s.threads.set i b) (h : s.threads.get? i = some a) :
    nClean s' + (if (match a with | SFThread.ownerCleanup _ _ => true | _ => false) then 1 else 0)
      = nClean s
        + (if (match b with | SFThread.ownerCleanup _ _ => true | _ => false) then 1 else 0) := by
  unfold nClean
  rw [hth]
  exact countP_set_add _ _ i a b h

theorem nRun_pos {ω : Type} (s : SFState ω) (i : Nat) (c : Nat)
    (h : s.threads.get? i = some (SFThread.ownerRun c)) : 0 < nRun s := by
  unfold nRun
  exact List.countP_pos_iff.mpr ⟨_, List.get?_mem h, rfl⟩

theorem nClean_pos {ω : Type} (s : SFState ω) (i : Nat) (c : Nat) (r : ω)
    (h : s.threads.get? i = some (SFThread.ownerCleanup c r)) : 0 < nClean s := by
  unfold nClean
  exact List.countP_pos_iff.mpr ⟨_, List.get?_mem h, rfl⟩

theorem length_set_eq {ω : Type} (s : SFState ω) (i : Nat) (b : SFThread ω) (n : Nat)
    (hlen : s.threads.length = n) : (s.threads.set i b).length = n := by
  rw [List.length_set]
  exact hlen

theorem sfStep_inv {ω : Type} [DecidableEq ω] (fn : ω) (n : Nat) (s : SFState ω) (i : Nat)
    (h : SFInv fn n s) : SFInv fn n (sfStep fn s i) := by
  cases hpc : s.threads.get? i with
  | none =>
    simpa only [sfStep, hpc] using h
  | some pc =>
    cases pc with
    | done r =>
      simpa only [sfStep, hpc] using h
    | waiting c =>
      cases hl : lookupCall s.calls c with
      | none =>
        simpa only [sfStep, hpc, hl] using h
      | some o =>
        cases o with
        | none =>
          simpa only [sfStep, hpc, hl] using h
        | some r =>
          obtain ⟨hlen, hcalls, hdone, hclean, hreg, hexec, hnone, hsome,
            hregnone, hregsome, hstart⟩ := h
          have hrfn : r = fn := by
            unfold lookupCall at hl
            cases hf : s.calls.find? (fun p => decide (p.1 = c)) with
            | none => rw [hf] at hl; cases hl
            | some p =>
              rw [hf] at hl
              simp only [Option.map_some'] at hl
              injection hl with hl
              have hp := List.mem_of_find?_eq_some hf
              rcases hcalls p hp with h0 | h0
              · rw [h0] at hl; cases hl
              · rw [h0] at hl
                injection hl with hl
                exact hl.symm
          simp only [sfStep, hpc, hl]
          rw [hrfn]
          show SFInv fn n { s with threads := s.threads.set i (SFThread.done fn) }
          have eR := nRun_update s { s with threads := s.threads.set i (SFThread.done fn) } i
            (SFThread.waiting c) (SFThread.done fn) rfl hpc
          have eC := nClean_update s { s with threads := s.threads.set i (SFThread.done fn) } i
            (SFThread.waiting c) (SFThread.done fn) rfl hpc
          simp only [Nat.add_zero, if_neg, Bool.false_eq_true, not_false_iff] at eR eC
          unfold SFInv
          refine ⟨length_set_eq s i _ n hlen, hcalls, ?_, ?_, ?_, ?_, ?_, ?_, ?_, ?_, ?_⟩
          · intro t ht r' heq
            rcases List.mem_or_eq_of_mem_set ht with ht' | rfl
            · exact hdone t ht' r' heq
            · injection heq with heq
              exact heq.symm
          · intro t ht c' r' heq
            rcases List.mem_or_eq_of_mem_set ht with ht' | rfl
            · exact hclean t ht' c' r' heq
            · cases heq
          · show s.regCount = s.execCount
              + nRun { s with threads := s.threads.set i (SFThread.done fn) }
            omega
          · show s.execCount = s.cleanCount
              + nClean { s with threads := s.threads.set i (SFThread.done fn) }
            omega
          · intro h'
            have h'' : s.registry = none := h'
            have := hnone h''
            omega
          · intro h'
            have h'' : s.registry.isSome := h'
            have := hsome h''
            omega
          · intro h'
            exact hregnone h'
          · intro h'
            exact hregsome h'
          · intro _
            refine hstart ⟨SFThread.waiting c, List.get?_mem hpc, ?_⟩
            intro heq
            cases heq
    | start =>
      cases hr : s.registry with
      | some c =>
        obtain ⟨hlen, hcalls, hdone, hclean, hreg, hexec, hnone, hsome,
          hregnone, hregsome, hstart⟩ := h
        have hreg1 : s.regCount = s.cleanCount + 1 := hregsome (by rw [hr]; rfl)
        have hsum1 : nRun s + nClean s = 1 := hsome (by rw [hr]; rfl)
        simp only [sfStep, hpc, hr]
        show SFInv fn n { s with
          registry := some c
          threads := s.threads.set i (SFThread.waiting c) }
        have eR := nRun_update s { s with
            registry := some c
            threads := s.threads.set i (SFThread.waiting c) } i
          SFThread.start (SFThread.waiting c) rfl hpc
        have eC := nClean_update s { s with
            registry := some c
            threads := s.threads.set i (SFThread.waiting c) } i
          SFThread.start (SFThread.waiting c) rfl hpc
        simp only [Nat.add_zero, if_neg, Bool.false_eq_true, not_false_iff] at eR eC
        unfold SFInv
        refine ⟨length_set_eq s i _ n hlen, hcalls, ?_, ?_, ?_, ?_, ?_, ?_, ?_, ?_, ?_⟩
        · intro t ht r' heq
          rcases List.mem_or_eq_of_mem_set ht with ht' | rfl
          · exact hdone t ht' r' heq
          · cases heq
        · intro t ht c' r' heq
          rcases List.mem_or_eq_of_mem_set ht with ht' | rfl
          · exact hclean t ht' c' r' heq
          · cases heq
        · show s.regCount = s.execCount + nRun { s with
            registry := some c
            threads := s.threads.set i (SFThread.waiting c) }
          omega
        · show s.execCount = s.cleanCount + nClean { s with
            registry := some c
            threads := s.threads.set i (SFThread.waiting c) }
          omega
        · intro h'
          have h'' : (some c : Option Nat) = none := h'
          cases h''
        · intro _
          omega
        · intro h'
          have h'' : (some c : Option Nat) = none := h'
          cases h''
        · intro _
          exact hreg1
        · intro _
          show 1 ≤ s.regCount
          omega
      | none =>
        obtain ⟨hlen, hcalls, hdone, hclean, hreg, hexec, hnone, hsome,
          hregnone, hregsome, hstart⟩ := h
        have hz := hnone hr
        have hrc := hregnone hr
        simp only [sfStep, hpc, hr]
        show SFInv fn n { s with
          registry := some s.nextId
          calls := (s.nextId, none) :: s.calls
          threads := s.threads.set i (SFThread.ownerRun s.nextId)
          nextId := s.nextId + 1
          regCount := s.regCount + 1 }
        have eR := nRun_update s { s with
            registry := some s.nextId
            calls := (s.nextId, none) :: s.calls
            threads := s.threads.set i (SFThread.ownerRun s.nextId)
            nextId := s.nextId + 1
            regCount := s.regCount + 1 } i
          SFThread.start (SFThread.ownerRun s.nextId) rfl hpc
        have eC := nClean_update s { s with
            registry := some s.nextId
            calls := (s.nextId, none) :: s.calls
            threads := s.threads.set i (SFThread.ownerRun s.nextId)
            nextId := s.nextId + 1
            regCount := s.regCount + 1 } i
          SFThread.start (SFThread.ownerRun s.nextId) rfl hpc
        simp only [Nat.add_zero, if_neg, if_pos, Bool.false_eq_true, not_false_iff] at eR eC
        unfold SFInv
        refine ⟨length_set_eq s i _ n hlen, ?_, ?_, ?_, ?_, ?_, ?_, ?_, ?_, ?_, ?_⟩
        · intro p hp
          rcases List.mem_cons.mp hp with rfl | hp'
          · exact Or.inl rfl
          · exact hcalls p hp'
        · intro t ht r' heq
          rcases List.mem_or_eq_of_mem_set ht with ht' | rfl
          · exact hdone t ht' r' heq
          · cases heq
        · intro t ht c' r' heq
          rcases List.mem_or_eq_of_mem_set ht with ht' | rfl
          · exact hclean t ht' c' r' heq
          · cases heq
        · show s.regCount + 1 = s.execCount + nRun { s with
            registry := some s.nextId
            calls := (s.nextId, none) :: s.calls
            threads := s.threads.set i (SFThread.ownerRun s.nextId)
            nextId := s.nextId + 1
            regCount := s.regCount + 1 }
          omega
        · show s.execCount = s.cleanCount + nClean { s with
            registry := some s.nextId
            calls := (s.nextId, none) :: s.calls
            threads := s.threads.set i (SFThread.ownerRun s.nextId)
            nextId := s.nextId + 1
            regCount := s.regCount + 1 }
          omega
        · intro h'
          have h'' : (some s.nextId : Option Nat) = none := h'
          cases h''
        · intro _
          omega
        · intro h'
          have h'' : (some s.nextId : Option Nat) = none := h'
          cases h''
        · intro _
          show s.regCount + 1 = s.cleanCount + 1
          omega
        · intro _
          show 1 ≤ s.regCount + 1
          omega
    | ownerRun c =>
      obtain ⟨hlen, hcalls, hdone, hclean, hreg, hexec, hnone, hsome,
        hregnone, hregsome, hstart⟩ := h
      have hpos := nRun_pos s i c hpc
      simp only [sfStep, hpc]
      show SFInv fn n { s with
        calls := setCallOutcome s.calls c fn
        threads := s.threads.set i (SFThread.ownerCleanup c fn)
        execCount := s.execCount + 1 }
      have eR := nRun_update s { s with
          calls := setCallOutcome s.calls c fn
          threads := s.threads.set i (SFThread.ownerCleanup c fn)
          execCount := s.execCount + 1 } i
        (SFThread.ownerRun c) (SFThread.ownerCleanup c fn) rfl hpc
      have eC := nClean_update s { s with
          calls := setCallOutcome s.calls c fn
          threads := s.threads.set i (SFThread.ownerCleanup c fn)
          execCount := s.execCount + 1 } i
        (SFThread.ownerRun c) (SFThread.ownerCleanup c fn) rfl hpc
      simp only [Nat.add_zero, if_neg, if_pos, Bool.false_eq_true, not_false_iff] at eR eC
      unfold SFInv
      refine ⟨length_set_eq s i _ n hlen, ?_, ?_, ?_, ?_, ?_, ?_, ?_, ?_, ?_, ?_⟩
      · intro p hp
        unfold setCallOutcome at hp
        rcases List.mem_map.mp hp with ⟨q, hq, hqp⟩
        by_cases hqc : q.1 = c
        · rw [if_pos hqc] at hqp
          rw [← hqp]
          exact Or.inr rfl
        · rw [if_neg hqc] at hqp
          rw [← hqp]
          exact hcalls q hq
      · intro t ht r' heq
        rcases List.mem_or_eq_of_mem_set ht with ht' | rfl
        · exact hdone t ht' r' heq
        · cases heq
      · intro t ht c' r' heq
        rcases List.mem_or_eq_of_mem_set ht with ht' | rfl
        · exact hclean t ht' c' r' heq
        · injection heq with heq1 heq2
          exact heq2.symm
      · show s.regCount = s.execCount + 1 + nRun { s with
          calls := setCallOutcome s.calls c fn
          threads := s.threads.set i (SFThread.ownerCleanup c fn)
          execCount := s.execCount + 1 }
        omega
      · show s.execCount + 1 = s.cleanCount + nClean { s with
          calls := setCallOutcome s.calls c fn
          threads := s.threads.set i (SFThread.ownerCleanup c fn)
          execCount := s.execCount + 1 }
        omega
      · intro h'
        have h'' : s.registry = none := h'
        have := hnone h''
        omega
      · intro h'
        have h'' : s.registry.isSome := h'
        have := hsome h''
        omega
      · intro h'
        exact hregnone h'
      · intro h'
        exact hregsome h'
      · intro _
        refine hstart ⟨SFThread.ownerRun c, List.get?_mem hpc, ?_⟩
        intro heq
        cases heq
    | ownerCleanup c r =>
      obtain ⟨hlen, hcalls, hdone, hclean, hreg, hexec, hnone, hsome,
        hregnone, hregsome, hstart⟩ := h
      have hpos := nClean_pos s i c r hpc
      have hrfn : r = fn := hclean _ (List.get?_mem hpc) c r rfl
      have hsome' : s.registry.isSome := by
        cases hreg0 : s.registry with
        | none =>
          have := hnone hreg0
          omega
        | some c0 => rfl
      have hsum1 := hsome hsome'
      have hrc1 := hregsome hsome'
      simp only [sfStep, hpc]
      show SFInv fn n { s with
        registry := none
        threads := s.threads.set i (SFThread.done r)
        cleanCount := s.cleanCount + 1 }
      have eR := nRun_update s { s with
          registry := none
          threads := s.threads.set i (SFThread.done r)
          cleanCount := s.cleanCount + 1 } i
        (SFThread.ownerCleanup c r) (SFThread.done r) rfl hpc
      have eC := nClean_update s { s with
          registry := none
          threads := s.threads.set i (SFThread.done r)
          cleanCount := s.cleanCount + 1 } i
        (SFThread.ownerCleanup c r) (SFThread.done r) rfl hpc
      simp only [Nat.add_zero, if_neg, if_pos, Bool.false_eq_true, not_false_iff] at eR eC
      unfold SFInv
      refine ⟨length_set_eq s i _ n hlen, hcalls, ?_, ?_, ?_, ?_, ?_, ?_, ?_, ?_, ?_⟩
      · intro t ht r' heq
        rcases List.mem_or_eq_of_mem_set ht with ht' | rfl
        · exact hdone t ht' r' heq
        · injection heq with heq
          rw [← heq]
          exact hrfn
      · intro t ht c' r' heq
        rcases List.mem_or_eq_of_mem_set ht with ht' | rfl
        · exact hclean t ht' c' r' heq
        · cases heq
      · show s.regCount = s.execCount + nRun { s with
          registry := none
          threads := s.threads.set i (SFThread.done r)
          cleanCount := s.cleanCount + 1 }
        omega
      · show s.execCount = s.cleanCount + 1 + nClean { s with
          registry := none
          threads := s.threads.set i (SFThread.done r)
          cleanCount := s.cleanCount + 1 }
        omega
      · intro _
        omega
      · intro h'
        have h'' : (none : Option Nat).isSome = true := h'
        cases h''
      · intro _
        show s.regCount = s.cleanCount + 1
        exact hrc1
      · intro h'
        have h'' : (none : Option Nat).isSome = true := h'
        cases h''
      · intro _
        show 1 ≤ s.regCount
        omega

theorem sfRun_inv_of {ω : Type} [DecidableEq ω] (fn : ω) (n : Nat) (sched : List Nat)
    (s : SFState ω) (h : SFInv fn n s) : SFInv fn n (sfRun fn s sched) := by
  induction sched generalizing s with
  | nil => exact h
  | cons i rest ih =>
    unfold sfRun
    rw [List.foldl_cons]
    exact ih (sfStep fn s i) (sfStep_inv fn n s i h)

theorem sfRun_inv {ω : Type} [DecidableEq ω] (fn : ω) (n : Nat) (sched : List Nat) :
    SFInv fn n (sfRun fn (sfInit ω n) sched) :=
  sfRun_inv_of fn n sched (sfInit ω n) (sfInit_inv fn n)

theorem sfRun_append_one {ω : Type} [DecidableEq ω] (fn : ω) (s : SFState ω)
    (l : List Nat) (i : Nat) :
    sfRun fn s (l ++ [i]) = sfStep fn (sfRun fn s l) i := by
  unfold sfRun
  rw [List.foldl_append]
  rfl

/-- Under the concurrency hypothesis (no thread is still at `start` once any
cleanup has happened — i.e. the N calls genuinely overlap), at most one
registration ever takes place. -/
theorem sfRun_reg_le_one {ω : Type} [DecidableEq ω] (fn : ω) (n : Nat) :
    ∀ sched : List Nat,
      (∀ k, k ≤ sched.length →
        1 ≤ (sfRun fn (sfInit ω n) (sched.take k)).cleanCount →
        ∀ t ∈ (sfRun fn (sfInit ω n) (sched.take k)).threads, t ≠ SFThread.start) →
      (sfRun fn (sfInit ω n) sched).regCount ≤ 1 := by
  intro sched
  induction sched using List.reverseRecOn with
  | nil =>
    intro _
    show (sfInit ω n).regCount ≤ 1
    exact Nat.zero_le 1
  | append_singleton l i ih =>
    intro hconc
    have hconcl : ∀ k, k ≤ l.length →
        1 ≤ (sfRun fn (sfInit ω n) (l.take k)).cleanCount →
        ∀ t ∈ (sfRun fn (sfInit ω n) (l.take k)).threads, t ≠ SFThread.start := by
      intro k hk
      have h2 := hconc k (by rw [List.length_append]; omega)
      rwa [List.take_append_of_le_length hk] at h2
    have hprev := ih hconcl
    rw [sfRun_append_one]
    have hinv := sfRun_inv fn n l
    obtain ⟨hlen, hcalls, hdone, hclean, hreg, hexec, hnone, hsome,
      hregnone, hregsome, hstart⟩ := hinv
    cases hpc : (sfRun fn (sfInit ω n) l).threads.get? i with
    | none => simpa only [sfStep, hpc] using hprev
    | some pc =>
      cases pc with
      | done r => simpa only [sfStep, hpc] using hprev
      | ownerRun c => simpa only [sfStep, hpc] using hprev
      | ownerCleanup c r => simpa only [sfStep, hpc] using hprev
      | waiting c =>
        cases hl : lookupCall (sfRun fn (sfInit ω n) l).calls c with
        | none => simpa only [sfStep, hpc, hl] using hprev
        | some o =>
          cases o with
          | none => simpa only [sfStep, hpc, hl] using hprev
          | some r => simpa only [sfStep, hpc, hl] using hprev
      | start =>
        cases hr : (sfRun fn (sfInit ω n) l).registry with
        | some c => simpa only [sfStep, hpc, hr] using hprev
        | none =>
          simp only [sfStep, hpc, hr]
          show (sfRun fn (sfInit ω n) l).regCount + 1 ≤ 1
          have hrc := hregnone hr
          by_cases h0 : (sfRun fn (sfInit ω n) l).regCount = 0
          · omega
          · exfalso
            have hclean1 : 1 ≤ (sfRun fn (sfInit ω n) l).cleanCount := by omega
            have hc2 := hconc l.length (by rw [List.length_append]; omega)
            rw [List.take_append_of_le_length (le_refl l.length), List.take_length] at hc2
            exact hc2 hclean1 SFThread.start (List.get?_mem hpc) rfl

/-- C2: for N overlapping `do(key, fn)` calls on the same key (every thread
has performed its check-and-register step before any owner removes the key,
and all N calls have completed), the producer is executed exactly once, and
every caller — the single owner and all waiters — finishes with the same
produced outcome `fn`. -/
theorem singleflight_executes_once {ω : Type} [DecidableEq ω] (fn : ω) (n : Nat)
    (sched : List Nat) (hn : 0 < n)
    (hdone : ∀ t ∈ (sfRun fn (sfInit ω n) sched).threads, ∃ r, t = SFThread.done r)
    (hconc : ∀ k, k ≤ sched.length →
      1 ≤ (sfRun fn (sfInit ω n) (sched.take k)).cleanCount →
      ∀ t ∈ (sfRun fn (sfInit ω n) (sched.take k)).threads, t ≠ SFThread.start) :
    (sfRun fn (sfInit ω n) sched).execCount = 1 ∧
    ∀ t ∈ (sfRun fn (sfInit ω n) sched).threads, t = SFThread.done fn := by
  obtain ⟨hlen, hcalls, hdone', hclean, hreg, hexec, hnone, hsome,
    hregnone, hregsome, hstart⟩ := sfRun_inv fn n sched
  have hrun0 : nRun (sfRun fn (sfInit ω n) sched) = 0 := by
    unfold nRun
    refine List.countP_eq_zero.mpr ?_
    intro t ht
    obtain ⟨r, rfl⟩ := hdone t ht
    simp
  have hclean0 : nClean (sfRun fn (sfInit ω n) sched) = 0 := by
    unfold nClean
    refine List.countP_eq_zero.mpr ?_
    intro t ht
    obtain ⟨r, rfl⟩ := hdone t ht
    simp
  have hle := sfRun_reg_le_one fn n sched hconc
  have hge : 1 ≤ (sfRun fn (sfInit ω n) sched).regCount := by
    have hpos : 0 < (sfRun fn (sfInit ω n) sched).threads.length := by
      rw [hlen]
      exact hn
    obtain ⟨t0, ht0⟩ := List.exists_mem_of_length_pos hpos
    obtain ⟨r, rfl⟩ := hdone t0 ht0
    refine hstart ⟨SFThread.done r, ht0, ?_⟩
    intro heq
    cases heq
  constructor
  · omega
  · intro t ht
    obtain ⟨r, rfl⟩ := hdone t ht
    rw [hdone' _ ht r rfl]

/-- Witness for C2: three threads, thread 0 registers and executes the
producer once, threads 1 and 2 wait and receive the same outcome. -/
theorem singleflight_executes_once_witness :
    (sfRun (42 : Nat) (sfInit Nat 3) [0, 1, 2, 0, 0, 1, 2]).execCount = 1 ∧
    ∀ t ∈ (sfRun (42 : Nat) (sfInit Nat 3) [0, 1, 2, 0, 0, 1, 2]).threads,
      t = SFThread.done 42 := by
  refine singleflight_executes_once 42 3 [0, 1, 2, 0, 0, 1, 2] (by decide) ?_ (by decide)
  have hthreads : (sfRun (42 : Nat) (sfInit Nat 3) [0, 1, 2, 0, 0, 1, 2]).threads
      = [SFThread.done 42, SFThread.done 42, SFThread.done 42] := by decide
  intro t ht
  rw [hthreads] at ht
  simp only [List.mem_cons, List.not_mem_nil, or_false] at ht
  rcases ht with rfl | rfl | rfl <;> exact ⟨42, rfl⟩

theorem set_concat_len {α : Type} (l : List α) (a b : α) :
    (l ++ [a]).set l.length b = l ++ [b] := by
  induction l with
  | nil => rfl
  | cons x xs ih =>
    show x :: (xs ++ [a]).set xs.length b = x :: (xs ++ [b])
    rw [ih]

theorem get_concat_len {α : Type} (l : List α) (a : α) :
    (l ++ [a]).get? l.length = some a := by
  rw [List.get?_eq_getElem?]
  exact List.getElem?_concat_length l a

/-- After a completed single-flight round the registry is empty, so a fresh
call for the same key (a new thread appended at `start`, running with a new
producer outcome `fn2`) registers again and re-executes the producer: the
mechanism never caches results between calls. -/
theorem sf_reexecutes {ε α : Type} [DecidableEq ε] [DecidableEq α] (n : Nat)
    (fn2 : Except ε α) (s : SFState (Except ε α))
    (hregn : s.registry = none) (hlen : s.threads.length = n) :
    (sfRun fn2 { s with threads := s.threads ++ [SFThread.start] } [n, n, n]).execCount
      = s.execCount + 1 ∧
    (sfRun fn2 { s with threads := s.threads ++ [SFThread.start] } [n, n, n]).threads.get? n
      = some (SFThread.done fn2) := by
  have hget : ∀ a : SFThread (Except ε α), (s.threads ++ [a]).get? n = some a := by
    intro a
    rw [← hlen]
    exact get_concat_len s.threads a
  have hset : ∀ a b : SFThread (Except ε α), (s.threads ++ [a]).set n b = s.threads ++ [b] := by
    intro a b
    rw [← hlen]
    exact set_concat_len s.threads a b
  have h1 : sfStep fn2 { s with threads := s.threads ++ [SFThread.start] } n
      = { s with
          registry := some s.nextId
          calls := (s.nextId, none) :: s.calls
          threads := s.threads ++ [SFThread.ownerRun s.nextId]
          nextId := s.nextId + 1
          regCount := s.regCount + 1 } := by
    simp only [sfStep, hget SFThread.start, hregn]
    rw [hset SFThread.start (SFThread.ownerRun s.nextId)]
  have h2 : sfStep fn2 { s with
        registry := some s.nextId
        calls := (s.nextId, none) :: s.calls
        threads := s.threads ++ [SFThread.ownerRun s.nextId]
        nextId := s.nextId + 1
        regCount := s.regCount + 1 } n
      = { s with
          registry := some s.nextId
          calls := setCallOutcome ((s.nextId, none) :: s.calls) s.nextId fn2
          threads := s.threads ++ [SFThread.ownerCleanup s.nextId fn2]
          nextId := s.nextId + 1
          execCount := s.execCount + 1
          regCount := s.regCount + 1 } := by
    simp only [sfStep, hget (SFThread.ownerRun s.nextId)]
    rw [hset (SFThread.ownerRun s.nextId) (SFThread.ownerCleanup s.nextId fn2)]
  have h3 : sfStep fn2 { s with
        registry := some s.nextId
        calls := setCallOutcome ((s.nextId, none) :: s.calls) s.nextId fn2
        threads := s.threads ++ [SFThread.ownerCleanup s.nextId fn2]
        nextId := s.nextId + 1
        execCount := s.execCount + 1
        regCount := s.regCount + 1 } n
      = { s with
          registry := none
          calls := setCallOutcome ((s.nextId, none) :: s.calls) s.nextId fn2
          threads := s.threads ++ [SFThread.done fn2]
          nextId := s.nextId + 1
          execCount := s.execCount + 1
          regCount := s.regCount + 1
          cleanCount := s.cleanCount + 1 } := by
    simp only [sfStep, hget (SFThread.ownerCleanup s.nextId fn2)]
    rw [hset (SFThread.ownerCleanup s.nextId fn2) (SFThread.done fn2)]
  have hrun : sfRun fn2 { s with threads := s.threads ++ [SFThread.start] } [n, n, n]
      = { s with
          registry := none
          calls := setCallOutcome ((s.nextId, none) :: s.calls) s.nextId fn2
          threads := s.threads ++ [SFThread.done fn2]
          nextId := s.nextId + 1
          execCount := s.execCount + 1
          regCount := s.regCount + 1
          cleanCount := s.cleanCount + 1 } := by
    show sfStep fn2 (sfStep fn2 (sfStep fn2
      { s with threads := s.threads ++ [SFThread.start] } n) n) n = _
    rw [h1, h2, h3]
  rw [hrun]
  exact ⟨rfl, hget (SFThread.done fn2)⟩

/-- C8: when the producer raises (outcome `Except.error e`), the owner and
every waiter of the key finish with that same exception; the producer is
executed exactly once per registration (never retried); after completion the
key's in-flight record has been removed from the registry, so a subsequent
call for the same key re-executes its producer (here with a possibly
different outcome `fn2`) instead of returning a cached result. -/
theorem singleflight_error_propagation {ε α : Type} [DecidableEq ε] [DecidableEq α]
    (e : ε) (n : Nat) (sched : List Nat) (S : SFState (Except ε α))
    (hS : S = sfRun (Except.error e) (sfInit (Except ε α) n) sched)
    (hdone : ∀ t ∈ S.threads, ∃ r, t = SFThread.done r) :
    (∀ t ∈ S.threads, t = SFThread.done (Except.error e)) ∧
    S.execCount = S.regCount ∧
    S.registry = none ∧
    (∀ fn2 : Except ε α,
      (sfRun fn2 { S with threads := S.threads ++ [SFThread.start] } [n, n, n]).execCount
        = S.execCount + 1 ∧
      (sfRun fn2 { S with threads := S.threads ++ [SFThread.start] } [n, n, n]).threads.get? n
        = some (SFThread.done fn2)) := by
  subst hS
  obtain ⟨hlen, hcalls, hdone', hclean, hreg, hexec, hnone, hsome,
    hregnone, hregsome, hstart⟩ := sfRun_inv (Except.error e : Except ε α) n sched
  have hrun0 : nRun (sfRun (Except.error e) (sfInit (Except ε α) n) sched) = 0 := by
    unfold nRun
    refine List.countP_eq_zero.mpr ?_
    intro t ht
    obtain ⟨r, rfl⟩ := hdone t ht
    simp
  have hclean0 : nClean (sfRun (Except.error e) (sfInit (Except ε α) n) sched) = 0 := by
    unfold nClean
    refine List.countP_eq_zero.mpr ?_
    intro t ht
    obtain ⟨r, rfl⟩ := hdone t ht
    simp
  have hregn : (sfRun (Except.error e) (sfInit (Except ε α) n) sched).registry = none := by
    cases hr : (sfRun (Except.error e) (sfInit (Except ε α) n) sched).registry with
    | none => rfl
    | some c =>
      have := hsome (by rw [hr]; rfl)
      omega
  refine ⟨?_, by omega, hregn, ?_⟩
  · intro t ht
    obtain ⟨r, rfl⟩ := hdone t ht
    rw [hdone' _ ht r rfl]
  · intro fn2
    exact sf_reexecutes n fn2 _ hregn hlen

/-- Witness for C8: two threads, the producer raises `"boom"`; both finish
with the same error, the registry is empty afterwards and a fresh call
re-executes with a new outcome. -/
theorem singleflight_error_propagation_witness :
    (∀ t ∈ (sfRun (Except.error "boom" : Except String Nat)
        (sfInit (Except String Nat) 2) [0, 1, 0, 0, 1]).threads,
      t = SFThread.done (Except.error "boom")) ∧
    (sfRun (Except.error "boom" : Except String Nat)
        (sfInit (Except String Nat) 2) [0, 1, 0, 0, 1]).execCount
      = (sfRun (Except.error "boom" : Except String Nat)
          (sfInit (Except String Nat) 2) [0, 1, 0, 0, 1]).regCount ∧
    (sfRun (Except.error "boom" : Except String Nat)
        (sfInit (Except String Nat) 2) [0, 1, 0, 0, 1]).registry = none ∧
    (∀ fn2 : Except String Nat,
      (sfRun fn2 { (sfRun (Except.error "boom" : Except String Nat)
            (sfInit (Except String Nat) 2) [0, 1, 0, 0, 1]) with
          threads := (sfRun (Except.error "boom" : Except String Nat)
              (sfInit (Except String Nat) 2) [0, 1, 0, 0, 1]).threads
            ++ [SFThread.start] } [2, 2, 2]).execCount
        = (sfRun (Except.error "boom" : Except String Nat)
            (sfInit (Except String Nat) 2) [0, 1, 0, 0, 1]).execCount + 1 ∧
      (sfRun fn2 { (sfRun (Except.error "boom" : Except String Nat)
            (sfInit (Except String Nat) 2) [0, 1, 0, 0, 1]) with
          threads := (sfRun (Except.error "boom" : Except String Nat)
              (sfInit (Except String Nat) 2) [0, 1, 0, 0, 1]).threads
            ++ [SFThread.start] } [2, 2, 2]).threads.get? 2
        = some (SFThread.done fn2)) := by
  refine singleflight_error_propagation "boom" 2 [0, 1, 0, 0, 1] _ rfl ?_
  have hthreads : (sfRun (Except.error "boom" : Except String Nat)
      (sfInit (Except String Nat) 2) [0, 1, 0, 0, 1]).threads
      = [SFThread.done (Except.error "boom"), SFThread.done (Except.error "boom")] := by
    decide
  intro t ht
  rw [hthreads] at ht
  simp only [List.mem_cons, List.not_mem_nil, or_false] at ht
  rcases ht with rfl | rfl <;> exact ⟨Except.error "boom", rfl⟩
